import Mathlib

/-!
# Banking ledger (`src/main.cpp`): shallow embedding and verified properties

C++ `std::string` is embedded as a list of byte values (`Nat`, each below 256).
Machine integers are embedded as `Int`/`Nat` with explicit reduction to their
width: `int` is 32 bits, `long long` is 64 bits, `size_t` and `uint32_t` are
unsigned 64 and 32 bits. Signed overflow is undefined behaviour in C++; the
embedding takes the two's-complement wrap-around that the target performs.
C++ exceptions are embedded as the error side of `Except`.
-/

set_option autoImplicit false

namespace Banking

/-- A C++ `std::string`: the sequence of its bytes. -/
abbrev Str := List Nat

/-- The exception classes thrown by the program. `InvalidArgument` is
`std::invalid_argument`, `OutOfRange` is `std::out_of_range` (both thrown by the
program itself or by `std::stoi`/`stoll`/`stoull`); the others are the classes
derived from `BankError`. -/
inductive Err where
  | InvalidArgument
  | OutOfRange
  | AccountNotFound
  | AuthenticationError
  | InsufficientFunds
  | PersistenceError
deriving DecidableEq, Repr

deriving instance DecidableEq for Except

/-- Reduction of a mathematical integer to a 32-bit two's-complement `int`. -/
def wrap32 (x : Int) : Int := (x + 2 ^ 31) % 2 ^ 32 - 2 ^ 31

/-- Reduction of a mathematical integer to a 64-bit two's-complement `long long`. -/
def wrap64 (x : Int) : Int := (x + 2 ^ 63) % 2 ^ 64 - 2 ^ 63

/-- The value is representable as an `int`. -/
def inInt (x : Int) : Prop := -2 ^ 31 ≤ x ∧ x ≤ 2 ^ 31 - 1

/-- The value is representable as a `long long`. -/
def inLL (x : Int) : Prop := -2 ^ 63 ≤ x ∧ x ≤ 2 ^ 63 - 1

instance (x : Int) : Decidable (inInt x) := by unfold inInt; infer_instance
instance (x : Int) : Decidable (inLL x) := by unfold inLL; infer_instance

/-- Every element of the string is a byte value. -/
def isBytes (s : Str) : Prop := ∀ c ∈ s, c < 256

instance (s : Str) : Decidable (isBytes s) := by unfold isBytes; infer_instance

/-! ## SimpleCipher -/

namespace SimpleCipher

/-- The loop `while (key.size() < 64) key.insert(key.end(), key.begin(), key.end())`:
the buffer is doubled until it holds at least 64 bytes. -/
def expand : Nat → List Nat → List Nat
  | 0, key => key
  | fuel + 1, key => if key.length < 64 then expand fuel (key ++ key) else key

/-- The loop `key[i] = (key[i] << (i % 5)) ^ (uint8_t)(31 + i)` from index `i` on;
the store into a `uint8_t` keeps the low 8 bits. -/
def rotate : Nat → List Nat → List Nat
  | _, [] => []
  | i, b :: bs => (((b <<< (i % 5)) ^^^ ((31 + i) % 256)) % 256) :: rotate (i + 1) bs

/-- The constructor `SimpleCipher(const string& k)`: the derived key. A first
buffer of at least one byte reaches 64 bytes in at most six doublings. -/
def derive (k : Str) : List Nat :=
  let key0 : List Nat := if k = [] then [0x42] else k
  let key1 := expand 6 key0
  let key2 := key1.take 64 ++ List.replicate (64 - key1.length) 0
  rotate 0 key2

/-- The loop of `apply` from index `i` on: `out[i] ^= key[i % key.size()]`. -/
def applyFrom (key : List Nat) : Nat → Str → Str
  | _, [] => []
  | i, c :: cs => ((c ^^^ key.getD (i % key.length) 0) % 256) :: applyFrom key (i + 1) cs

/-- The method `SimpleCipher(k).apply(in)`. -/
def apply (k : Str) (input : Str) : Str := applyFrom (derive k) 0 input

end SimpleCipher

/-! ## Decimal text: `operator<<` and `std::stoi` / `stoll` / `stoull` -/

/-- Decimal digits of `n`, most significant first, put in front of `acc`. -/
def decAux : Nat → Nat → Str → Str
  | 0, _, acc => acc
  | fuel + 1, n, acc =>
    if n / 10 = 0 then (48 + n % 10) :: acc else decAux fuel (n / 10) ((48 + n % 10) :: acc)

/-- The text `operator<<` writes for an unsigned integer (`size_t`). -/
def natToDec (n : Nat) : Str := decAux (n + 1) n []

/-- The text `operator<<` writes for a signed integer (`int`, `long long`). -/
def intToDec (x : Int) : Str :=
  if x < 0 then 45 :: natToDec x.natAbs else natToDec x.natAbs

/-- The function `isspace` in the C locale. -/
def isSpace (c : Nat) : Bool := c == 32 || (9 ≤ c && c ≤ 13)

/-- A decimal digit character. -/
def isDigit (c : Nat) : Bool := 48 ≤ c && c ≤ 57

/-- Value of a run of decimal digit characters. -/
def digitsVal (ds : Str) : Nat := ds.foldl (fun a d => a * 10 + (d - 48)) 0

/-- The scan shared by `strtol`, `strtoll` and `strtoull` in base 10: leading
white space is skipped, one optional sign is read, then the longest run of
digits; what follows the digits is ignored. The result is the sign and the
magnitude, or `none` when there is no digit. -/
def scanInt (s : Str) : Option (Bool × Nat) :=
  let s1 := s.dropWhile isSpace
  let neg : Bool := s1.head? == some 45
  let s2 := if s1.head? == some 45 || s1.head? == some 43 then s1.tail else s1
  let ds := s2.takeWhile isDigit
  if ds = [] then none else some (neg, digitsVal ds)

/-- The library function `std::stoi`: `std::invalid_argument` without a digit,
`std::out_of_range` when the value is no `int`. -/
def stoi (s : Str) : Except Err Int :=
  match scanInt s with
  | none => .error .InvalidArgument
  | some (neg, m) =>
    let v : Int := if neg then -(m : Int) else (m : Int)
    if -2 ^ 31 ≤ v ∧ v ≤ 2 ^ 31 - 1 then .ok v else .error .OutOfRange

/-- The library function `std::stoll`. -/
def stoll (s : Str) : Except Err Int :=
  match scanInt s with
  | none => .error .InvalidArgument
  | some (neg, m) =>
    let v : Int := if neg then -(m : Int) else (m : Int)
    if -2 ^ 63 ≤ v ∧ v ≤ 2 ^ 63 - 1 then .ok v else .error .OutOfRange

/-- The library function `std::stoull`: a magnitude above `2^64 - 1` is out of
range; a minus sign negates the value in the unsigned type. -/
def stoull (s : Str) : Except Err Nat :=
  match scanInt s with
  | none => .error .InvalidArgument
  | some (neg, m) =>
    if m ≤ 2 ^ 64 - 1 then .ok (if neg then (2 ^ 64 - m) % 2 ^ 64 else m) else .error .OutOfRange

/-! ## Account -/

/-- The class `Account`. -/
structure Account where
  id_ : Int
  name_ : Str
  balance_paise_ : Int
  pin_hash_ : Nat
deriving DecidableEq, Repr

namespace Account

/-- The method `Account::deposit`. -/
def deposit (a : Account) (paise : Int) : Except Err Account :=
  if paise ≤ 0 then .error .InvalidArgument
  else .ok { a with balance_paise_ := wrap64 (a.balance_paise_ + paise) }

/-- The method `Account::withdraw`. -/
def withdraw (a : Account) (paise : Int) : Except Err Account :=
  if paise ≤ 0 then .error .InvalidArgument
  else if a.balance_paise_ < paise then .error .InsufficientFunds
  else .ok { a with balance_paise_ := wrap64 (a.balance_paise_ - paise) }

/-- The method `Account::verify_pin`; `H` is `std::hash<string>`, whose values
are of type `size_t`. -/
def verify_pin (H : Str → Nat) (a : Account) (pin salt : Str) : Bool :=
  H (pin ++ [58] ++ salt) % 2 ^ 64 == a.pin_hash_

/-- The lambda `esc` of `serialize`: a backslash is put before each backslash,
`|`, line feed and carriage return. -/
def esc : Str → Str
  | [] => []
  | c :: cs =>
    if c = 92 ∨ c = 124 ∨ c = 10 ∨ c = 13 then 92 :: c :: esc cs else c :: esc cs

/-- The method `Account::serialize`. -/
def serialize (a : Account) : Str :=
  intToDec a.id_ ++ [124] ++ esc a.name_ ++ [124] ++ intToDec a.balance_paise_ ++ [124]
    ++ natToDec a.pin_hash_

/-- The loop of the lambda `unesc` of `deserialize`; the flag is `esc`. -/
def unescLoop : Bool → Str → Str
  | _, [] => []
  | true, c :: cs => c :: unescLoop false cs
  | false, c :: cs => if c = 92 then unescLoop true cs else c :: unescLoop false cs

/-- The lambda `unesc` of `deserialize`. -/
def unesc (s : Str) : Str := unescLoop false s

/-- The splitting loop of `deserialize` over the rest of the line, from the
state `parts`, `cur`, `esc`; it yields `parts` and `cur` at the end of the line. -/
def splitLoop : List Str → Str → Bool → Str → List Str × Str
  | parts, cur, _, [] => (parts, cur)
  | parts, cur, esc, c :: cs =>
    if !esc && c = 92 then splitLoop parts cur true cs
    else if !esc && c = 124 then splitLoop (parts ++ [cur]) [] false cs
    else splitLoop parts (cur ++ [c]) false cs

/-- The static method `Account::deserialize`. -/
def deserialize (line : Str) : Except Err Account :=
  let r := splitLoop [] [] false line
  match r.1 ++ [r.2] with
  | [p0, p1, p2, p3] =>
    match stoi p0 with
    | .error e => .error e
    | .ok id =>
      match stoll p2 with
      | .error e => .error e
      | .ok bal =>
        match stoull p3 with
        | .error e => .error e
        | .ok ph => .ok ⟨id, unesc p1, bal, ph⟩
  | _ => .error .PersistenceError

end Account

/-! ## Persistence -/

/-- The four bytes of a `uint32_t` in memory, least significant first. -/
def le32 (n : Nat) : Str := [n % 256, n / 256 % 256, n / 65536 % 256, n / 16777216 % 256]

/-- The `uint32_t` whose bytes in memory are the first four of `bs`. -/
def readLe32 (bs : Str) : Nat :=
  bs.getD 0 0 + 256 * bs.getD 1 0 + 65536 * bs.getD 2 0 + 16777216 * bs.getD 3 0

/-- The class `Persistence`: the key its cipher is built from, and the content
of the file at `path_`, which the process owns alone (`none`: no such file). -/
structure Persistence where
  key : Str
  file : Option Str
deriving DecidableEq, Repr

namespace Persistence

/-- The bytes the loop of `save` writes: for each account the `uint32_t` length
of the enciphered record, then the record. -/
def saveBytes (key : Str) : List Account → Str
  | [] => []
  | a :: rest =>
    le32 ((SimpleCipher.apply key a.serialize).length % 2 ^ 32)
      ++ SimpleCipher.apply key a.serialize ++ saveBytes key rest

/-- The method `Persistence::save` on a file system that does not fail. The
source throws `PersistenceError` when the temporary file cannot be opened,
written or renamed, and its callers have changed the ledger in memory by then:
the file this embedding gives is the file of a run without such a failure,
while the ledger in memory is the same in either case. -/
def save (p : Persistence) (accounts : List Account) : Persistence :=
  { p with file := some (saveBytes p.key accounts) }

/-- The loop of `load` over the unread bytes of the file; `none` when the fuel
is used up before the loop ends. -/
def loadLoop (key : Str) : Nat → Str → List Account → Option (Except Err (List Account))
  | 0, _, _ => none
  | fuel + 1, bytes, out =>
    if bytes.length < 4 then some (.ok out)
    else if readLe32 (bytes.take 4) > 2 ^ 24 then some (.error .PersistenceError)
    else if (bytes.drop 4).length < readLe32 (bytes.take 4) then some (.error .PersistenceError)
    else if SimpleCipher.apply key ((bytes.drop 4).take (readLe32 (bytes.take 4))) = [] then
      loadLoop key fuel ((bytes.drop 4).drop (readLe32 (bytes.take 4))) out
    else
      match Account.deserialize
          (SimpleCipher.apply key ((bytes.drop 4).take (readLe32 (bytes.take 4)))) with
      | .error e => some (.error e)
      | .ok a => loadLoop key fuel ((bytes.drop 4).drop (readLe32 (bytes.take 4))) (out ++ [a])

/-- The parse of a whole file by `load`. Each turn of the loop consumes at least
four bytes, so the fuel `bytes.length + 1` is never used up. -/
def loadBytes (key : Str) (bytes : Str) : Except Err (List Account) :=
  match loadLoop key (bytes.length + 1) bytes [] with
  | some r => r
  | none => .error .PersistenceError

/-- The method `Persistence::load`: no file gives the empty list. -/
def load (p : Persistence) : Except Err (List Account) :=
  match p.file with
  | none => .ok []
  | some bytes => loadBytes p.key bytes

end Persistence

/-! ## Bank -/

/-- The class `Bank`; `accounts_` is the `unordered_map<int, Account>` as the
list of its entries. -/
structure Bank where
  accounts_ : List (Int × Account)
  store_ : Persistence
  salt_ : Str
  next_id_ : Int
deriving DecidableEq, Repr

namespace Bank

/-- The lookup `accounts_.find(id)`. -/
def find : List (Int × Account) → Int → Option Account
  | [], _ => none
  | (k, a) :: rest, id => if k = id then some a else find rest id

/-- The write through the iterator of `find(id)`: the value under `id` becomes `a`. -/
def assign : List (Int × Account) → Int → Account → List (Int × Account)
  | [], _, _ => []
  | (k, v) :: rest, id, a =>
    if k = id then (k, a) :: assign rest id a else (k, v) :: assign rest id a

/-- The insertion `accounts_.emplace(id, a)`: nothing is inserted when the key exists. -/
def emplace (m : List (Int × Account)) (id : Int) (a : Account) : List (Int × Account) :=
  if (find m id).isSome then m else m ++ [(id, a)]

/-- The method `Bank::hash_pin`; `H` is `std::hash<string>`. -/
def hash_pin (H : Str → Nat) (salt pin : Str) : Nat := H (pin ++ [58] ++ salt) % 2 ^ 64

/-- The loop of the constructor over the loaded accounts. -/
def initLoop : List Account → List (Int × Account) → Int → List (Int × Account) × Int
  | [], m, nid => (m, nid)
  | a :: rest, m, nid => initLoop rest (emplace m a.id_ a) (max nid (wrap32 (a.id_ + 1)))

/-- The constructor `Bank::Bank` on a store. -/
def create (store : Persistence) (salt : Str) : Except Err Bank :=
  match store.load with
  | .error e => .error e
  | .ok loaded => .ok ⟨(initLoop loaded [] 1001).1, store, salt, (initLoop loaded [] 1001).2⟩

/-- The ledger built when there is no backing file. -/
def empty (key salt : Str) : Bank := ⟨[], ⟨key, none⟩, salt, 1001⟩

/-- The method `Bank::snapshot`: the accounts sorted by ascending id. -/
def snapshot (b : Bank) : List Account :=
  (b.accounts_.map Prod.snd).insertionSort (fun x y => x.id_ ≤ y.id_)

/-- The call `store_.save(snapshot())`. -/
def persist (b : Bank) : Bank := { b with store_ := b.store_.save b.snapshot }

/-- The method `Bank::open_account`. -/
def open_account (H : Str → Nat) (b : Bank) (name pin : Str) (initial_paise : Int) :
    Except Err Int × Bank :=
  if name = [] then (.error .InvalidArgument, b)
  else if pin.length < 4 then (.error .InvalidArgument, b)
  else if initial_paise < 0 then (.error .InvalidArgument, b)
  else
    (.ok b.next_id_,
      persist { b with
        next_id_ := wrap32 (b.next_id_ + 1)
        accounts_ := emplace b.accounts_ b.next_id_
          ⟨b.next_id_, name, initial_paise, hash_pin H b.salt_ pin⟩ })

/-- The method `Bank::get_balance` (a `const` method). -/
def get_balance (H : Str → Nat) (b : Bank) (id : Int) (pin : Str) : Except Err Int :=
  match find b.accounts_ id with
  | none => .error .AccountNotFound
  | some a =>
    if !a.verify_pin H pin b.salt_ then .error .AuthenticationError
    else .ok a.balance_paise_

/-- The method `Bank::deposit`. -/
def deposit (b : Bank) (id : Int) (paise : Int) : Except Err Unit × Bank :=
  match find b.accounts_ id with
  | none => (.error .AccountNotFound, b)
  | some a =>
    match a.deposit paise with
    | .error e => (.error e, b)
    | .ok a1 => (.ok (), persist { b with accounts_ := assign b.accounts_ id a1 })

/-- The method `Bank::withdraw`. -/
def withdraw (H : Str → Nat) (b : Bank) (id : Int) (pin : Str) (paise : Int) :
    Except Err Unit × Bank :=
  match find b.accounts_ id with
  | none => (.error .AccountNotFound, b)
  | some a =>
    if !a.verify_pin H pin b.salt_ then (.error .AuthenticationError, b)
    else
      match a.withdraw paise with
      | .error e => (.error e, b)
      | .ok a1 => (.ok (), persist { b with accounts_ := assign b.accounts_ id a1 })

/-- The method `Bank::transfer`. When the credit throws after the debit, the
ledger keeps the debit. -/
def transfer (H : Str → Nat) (b : Bank) (fromId : Int) (pin : Str) (toId : Int) (paise : Int) :
    Except Err Unit × Bank :=
  if fromId = toId then (.error .InvalidArgument, b)
  else if paise ≤ 0 then (.error .InvalidArgument, b)
  else
    match find b.accounts_ fromId with
    | none => (.error .AccountNotFound, b)
    | some fa =>
      match find b.accounts_ toId with
      | none => (.error .AccountNotFound, b)
      | some ta =>
        if !fa.verify_pin H pin b.salt_ then (.error .AuthenticationError, b)
        else
          match fa.withdraw paise with
          | .error e => (.error e, b)
          | .ok fa1 =>
            match ta.deposit paise with
            | .error e => (.error e, { b with accounts_ := assign b.accounts_ fromId fa1 })
            | .ok ta1 =>
              (.ok (), persist { b with
                accounts_ := assign (assign b.accounts_ fromId fa1) toId ta1 })

/-- The method `Bank::list_accounts` (a `const` method). -/
def list_accounts (b : Bank) : List Account := b.snapshot

/-- One call of a mutating public operation, with its arguments. -/
inductive Op where
  | open_account (name pin : Str) (initial_paise : Int)
  | deposit (id : Int) (paise : Int)
  | withdraw (id : Int) (pin : Str) (paise : Int)
  | transfer (fromId : Int) (pin : Str) (toId : Int) (paise : Int)
deriving DecidableEq, Repr

/-- The ledger after one call, whether the call returns or throws. -/
def step (H : Str → Nat) (b : Bank) : Op → Bank
  | .open_account name pin initial_paise => (open_account H b name pin initial_paise).2
  | .deposit id paise => (deposit b id paise).2
  | .withdraw id pin paise => (withdraw H b id pin paise).2
  | .transfer fromId pin toId paise => (transfer H b fromId pin toId paise).2

/-- The ledger after a sequence of calls. -/
def run (H : Str → Nat) (b : Bank) (ops : List Op) : Bank := ops.foldl (step H) b

end Bank

/-- The bytes of an ASCII string literal. -/
def ascii (s : String) : Str := s.toList.map Char.toNat

/-- A concrete function in the place of `std::hash<string>`, for evaluating the
ledger on concrete inputs. -/
def sampleHash (s : Str) : Nat := s.foldl (fun h c => (h * 31 + c) % 2 ^ 64) 7

/-- Two calls of `open_account`: Alice with PIN 1234 and 3000, Bob with PIN 5678 and 300. -/
def sampleOps : List Bank.Op :=
  [.open_account (ascii "Alice") (ascii "1234") 3000,
   .open_account (ascii "Bob") (ascii "5678") 300]

/-- The ledger holding Alice (id 1001) and Bob (id 1002), built without a backing
file, with `sampleHash` as hash, `k` as key and `s` as salt. -/
def twoAccounts : Bank := Bank.run sampleHash (Bank.empty (ascii "k") (ascii "s")) sampleOps

/-- The machine types of the fields of an account: `int` id, byte string name,
`long long` balance, `size_t` digest. -/
def Account.typed (a : Account) : Prop :=
  inInt a.id_ ∧ isBytes a.name_ ∧ inLL a.balance_paise_ ∧ a.pin_hash_ < 2 ^ 64

/-- The arguments of a call are values of the parameter types: `string`
arguments are byte strings, `int` and `long long` arguments are in range. -/
def Bank.Op.typed : Bank.Op → Prop
  | .open_account name pin initial_paise => isBytes name ∧ isBytes pin ∧ inLL initial_paise
  | .deposit id paise => inInt id ∧ inLL paise
  | .withdraw id pin paise => inInt id ∧ isBytes pin ∧ inLL paise
  | .transfer fromId pin toId paise => inInt fromId ∧ isBytes pin ∧ inInt toId ∧ inLL paise

instance (op : Bank.Op) : Decidable op.typed := by
  cases op <;> unfold Bank.Op.typed <;> infer_instance

/-- The state of a ledger is well formed: each entry of the map is stored under
the id of its account, the fields of each account are values of their machine
types, the keys of the map are distinct, and `next_id_` is an `int`. -/
def Bank.wf (b : Bank) : Prop :=
  (∀ e ∈ b.accounts_, e.2.id_ = e.1 ∧ e.2.typed) ∧ (b.accounts_.map Prod.fst).Nodup ∧
    inInt b.next_id_

instance : IsTotal Account (fun x y => x.id_ ≤ y.id_) := ⟨fun x y => le_total x.id_ y.id_⟩

instance : IsTrans Account (fun x y => x.id_ ≤ y.id_) :=
  ⟨fun _ _ _ hxy hyz => le_trans hxy hyz⟩

/-- An 8-bit left rotation of the byte `b` by `n` (at most 8) bits, the operation
the specification names in the key derivation. -/
def rotateLeft8 (b n : Nat) : Nat := ((b <<< n) ||| (b >>> (8 - n))) % 256

/-- The byte `i` of the derived key as the specification states it:
`rotate_left(k'[i mod len(k')], i mod 5) xor (31 + i)`, where `k'` is the key, or
the single byte 0x42 when the key is empty. -/
def specKeyByte (k : Str) (i : Nat) : Nat :=
  rotateLeft8 ((if k = [] then [0x42] else k).getD (i % (if k = [] then [0x42] else k).length) 0)
      (i % 5) ^^^ ((31 + i) % 256)

/-- The buffer is a whole number of copies of `key0`. -/
def isRepeat (key0 l : List Nat) : Prop :=
  key0.length ∣ l.length ∧ ∀ i, i < l.length → l.getD i 0 = key0.getD (i % key0.length) 0

/-- An unsigned decimal integer numeral, in the words of the specification: one
or more decimal digits and nothing else. -/
def isNatNumeral (s : Str) : Bool := !s.isEmpty && s.all isDigit

/-- A signed decimal integer numeral, in the words of the specification: an
optional minus sign, then one or more decimal digits and nothing else. -/
def isIntNumeral (s : Str) : Bool :=
  if s.head? = some 45 then isNatNumeral s.tail else isNatNumeral s

/-- The fields into which `deserialize` splits a line. -/
def Account.fields (line : Str) : List Str :=
  (Account.splitLoop [] [] false line).1 ++ [(Account.splitLoop [] [] false line).2]

/-- The ledger after `open_account("Alice", "1234", 100000)` on the empty ledger. -/
def aliceOpened (H : Str → Nat) (key salt : Str) : Bank :=
  (Bank.open_account H (Bank.empty key salt) (ascii "Alice") (ascii "1234") 100000).2

/-- The ledger after the following `deposit(1001, 5000)`. -/
def aliceDeposited (H : Str → Nat) (key salt : Str) : Bank :=
  (Bank.deposit (aliceOpened H key salt) 1001 5000).2

/-- The ledger after the following `withdraw(1001, "1234", 105000)`. -/
def aliceWithdrawn (H : Str → Nat) (key salt : Str) : Bank :=
  (Bank.withdraw H (aliceDeposited H key salt) 1001 (ascii "1234") 105000).2

/-- The counter is at least 1001 and above every key of the map. -/
def Bank.idsBelow (b : Bank) : Prop :=
  1001 ≤ b.next_id_ ∧ ∀ k ∈ b.accounts_.map Prod.fst, k < b.next_id_

/-- A character of the set `" \t\r\n"` that `trim` strips. -/
def isTrimSpace (c : Nat) : Bool := c == 32 || c == 9 || c == 13 || c == 10

/-- The helper `trim`: the string without its leading and trailing characters
of `" \t\r\n"`; empty when it holds nothing else. -/
def trim (s : Str) : Str :=
  ((s.dropWhile isTrimSpace).reverse.dropWhile isTrimSpace).reverse

/-- The output of a number under `setw(2)` and `setfill('0')`: zeros are put in
front up to the width 2. -/
def pad2 (s : Str) : Str := List.replicate (2 - s.length) 48 ++ s

/-- The helper `to_money`; `/` and `%` of C++ truncate toward zero. -/
def to_money (paise : Int) : Str :=
  intToDec (Int.tdiv paise 100) ++ [46] ++ pad2 (natToDec (Int.tmod paise 100).natAbs)

/-- The helper `parse_money`; the arithmetic is that of `long long`. -/
def parse_money (s : Str) : Except Err Int :=
  if trim s = [] then .error .InvalidArgument
  else if 46 ∉ trim s then
    match stoll (trim s) with
    | .error e => .error e
    | .ok r => .ok (wrap64 (r * 100))
  else if ((trim s).dropWhile (fun c => c != 46)).tail.length > 2 then .error .InvalidArgument
  else
    match stoll (if (trim s).takeWhile (fun c => c != 46) = [] then [48]
        else (trim s).takeWhile (fun c => c != 46)) with
    | .error e => .error e
    | .ok r =>
      match stoll (((trim s).dropWhile (fun c => c != 46)).tail ++
          List.replicate (2 - ((trim s).dropWhile (fun c => c != 46)).tail.length) 48) with
      | .error e => .error e
      | .ok p => .ok (wrap64 (wrap64 (r * 100) + (if r ≥ 0 then p else wrap64 (-p))))

/-- The PIN made of the nine bytes of `v`. -/
def pinOfBytes (v : Fin 9 → Fin 256) : Str := List.ofFn (fun i => (v i).val)

/-- The ledger constructed from a file that holds the two records
`2147483646|A|0|0` and `2147483647|B|0|0`, with key `k` and salt `s`. -/
def topIdsLedger : Except Err Bank :=
  Bank.create ⟨ascii "k", some (Persistence.saveBytes (ascii "k")
    [⟨2147483646, ascii "A", 0, 0⟩, ⟨2147483647, ascii "B", 0, 0⟩])⟩ (ascii "s")

/-! ## Lemmas

### Facts about the cipher -/

theorem rotate_lt (bs : List Nat) (i : Nat) : ∀ x ∈ SimpleCipher.rotate i bs, x < 256 := by
  induction bs generalizing i with
  | nil => intro x hx; simp [SimpleCipher.rotate] at hx
  | cons b bs ih =>
    intro x hx
    simp only [SimpleCipher.rotate, List.mem_cons] at hx
    rcases hx with rfl | hx
    · exact Nat.mod_lt _ (by norm_num)
    · exact ih (i + 1) x hx

theorem derive_lt (k : Str) : ∀ x ∈ SimpleCipher.derive k, x < 256 := by
  unfold SimpleCipher.derive
  exact rotate_lt _ 0

theorem expand_length (key : List Nat) (h : key ≠ []) :
    64 ≤ (SimpleCipher.expand 6 key).length := by
  have h1 : 1 ≤ key.length := List.length_pos.mpr h
  simp only [SimpleCipher.expand]
  split_ifs <;> simp only [List.length_append] at * <;> omega

theorem rotate_length (bs : List Nat) (i : Nat) :
    (SimpleCipher.rotate i bs).length = bs.length := by
  induction bs generalizing i with
  | nil => rfl
  | cons b bs ih => simp [SimpleCipher.rotate, ih]

theorem derive_length (k : Str) : (SimpleCipher.derive k).length = 64 := by
  unfold SimpleCipher.derive
  simp only [rotate_length, List.length_append, List.length_take, List.length_replicate]
  omega

theorem getD_lt (key : List Nat) (h : ∀ x ∈ key, x < 256) (j : Nat) : key.getD j 0 < 256 := by
  rw [List.getD_eq_getElem?_getD]
  cases hj : key[j]? with
  | none => simp
  | some v =>
    have : v ∈ key := List.getElem?_mem hj
    simpa using h v this

theorem xor_byte_cancel (c k : Nat) (hc : c < 256) (hk : k < 256) :
    (((c ^^^ k) % 256) ^^^ k) % 256 = c := by
  have h1 : c ^^^ k < 2 ^ 8 := Nat.xor_lt_two_pow (by simpa using hc) (by simpa using hk)
  have h1' : c ^^^ k < 256 := by simpa using h1
  rw [Nat.mod_eq_of_lt h1', Nat.xor_assoc, Nat.xor_self, Nat.xor_zero, Nat.mod_eq_of_lt hc]

theorem applyFrom_length (key : List Nat) (s : Str) (i : Nat) :
    (SimpleCipher.applyFrom key i s).length = s.length := by
  induction s generalizing i with
  | nil => rfl
  | cons c cs ih => simp [SimpleCipher.applyFrom, ih]

theorem applyFrom_involutive (key : List Nat) (hkey : ∀ x ∈ key, x < 256) (s : Str)
    (hs : isBytes s) (i : Nat) :
    SimpleCipher.applyFrom key i (SimpleCipher.applyFrom key i s) = s := by
  induction s generalizing i with
  | nil => rfl
  | cons c cs ih =>
    have hc : c < 256 := hs c (List.mem_cons_self _ _)
    have hcs : isBytes cs := fun x hx => hs x (List.mem_cons_of_mem _ hx)
    simp only [SimpleCipher.applyFrom]
    rw [xor_byte_cancel c _ hc (getD_lt key hkey _), ih hcs]

theorem apply_length (k : Str) (s : Str) : (SimpleCipher.apply k s).length = s.length :=
  applyFrom_length _ s 0

theorem apply_apply (k : Str) (s : Str) (hs : isBytes s) :
    SimpleCipher.apply k (SimpleCipher.apply k s) = s :=
  applyFrom_involutive _ (derive_lt k) s hs 0

/-! ### Facts about the map of accounts -/

theorem find_assign_self (m : List (Int × Account)) (id : Int) (a a1 : Account)
    (h : Bank.find m id = some a) : Bank.find (Bank.assign m id a1) id = some a1 := by
  induction m with
  | nil => simp [Bank.find] at h
  | cons e rest ih =>
    obtain ⟨k, v⟩ := e
    by_cases hk : k = id
    · simp [Bank.find, Bank.assign, hk]
    · simp [Bank.find, hk] at h
      simp [Bank.find, Bank.assign, hk, ih h]

theorem find_assign_other (m : List (Int × Account)) (id k : Int) (a1 : Account)
    (hk : k ≠ id) : Bank.find (Bank.assign m id a1) k = Bank.find m k := by
  induction m with
  | nil => rfl
  | cons e rest ih =>
    obtain ⟨k0, v⟩ := e
    by_cases h0 : k0 = id
    · have h1 : ¬ k0 = k := fun h => hk (h ▸ h0)
      simp only [Bank.assign, if_pos h0, Bank.find, if_neg h1, ih]
    · by_cases h1 : k0 = k
      · simp only [Bank.assign, if_neg h0, Bank.find, if_pos h1]
      · simp only [Bank.assign, if_neg h0, Bank.find, if_neg h1, ih]

theorem assign_keys (m : List (Int × Account)) (id : Int) (a1 : Account) :
    (Bank.assign m id a1).map Prod.fst = m.map Prod.fst := by
  induction m with
  | nil => rfl
  | cons e rest ih =>
    obtain ⟨k0, v⟩ := e
    by_cases h0 : k0 = id <;> simp [Bank.assign, h0, ih]

theorem wrap64_id (x : Int) (h : inLL x) : wrap64 x = x := by
  unfold inLL at h
  unfold wrap64
  omega

/-- C6 -/
theorem find_emplace_fresh (m : List (Int × Account)) (id : Int) (a : Account)
    (h : Bank.find m id = none) : Bank.find (Bank.emplace m id a) id = some a := by
  have : Bank.emplace m id a = m ++ [(id, a)] := by simp [Bank.emplace, h]
  rw [this]
  clear this
  induction m with
  | nil => simp [Bank.find]
  | cons e rest ih =>
    obtain ⟨k, v⟩ := e
    by_cases hk : k = id
    · simp [Bank.find, hk] at h
    · simp only [Bank.find, if_neg hk] at h
      simp only [List.cons_append, Bank.find, if_neg hk]
      exact ih h

/-! ### Decimal text -/

theorem digitsVal_decAux (fuel n : Nat) (acc : Str) (h : n < fuel) :
    List.foldl (fun a d => a * 10 + (d - 48)) 0 (decAux fuel n acc)
      = List.foldl (fun a d => a * 10 + (d - 48)) n acc := by
  induction fuel generalizing n acc with
  | zero => omega
  | succ fuel ih =>
    unfold decAux
    by_cases h0 : n / 10 = 0
    · rw [if_pos h0]
      have : n % 10 = n := Nat.mod_eq_of_lt (by omega)
      simp [this]
    · rw [if_neg h0, ih (n / 10) _ (by omega)]
      simp only [List.foldl_cons]
      congr 1
      omega

theorem digitsVal_natToDec (n : Nat) : digitsVal (natToDec n) = n := by
  unfold digitsVal natToDec
  rw [digitsVal_decAux _ _ _ (Nat.lt_succ_self n)]
  rfl

theorem decAux_digits (fuel n : Nat) (acc : Str) (hacc : ∀ c ∈ acc, isDigit c = true) :
    ∀ c ∈ decAux fuel n acc, isDigit c = true := by
  induction fuel generalizing n acc with
  | zero => simpa [decAux] using hacc
  | succ fuel ih =>
    have hd : isDigit (48 + n % 10) = true := by
      have : n % 10 < 10 := Nat.mod_lt _ (by norm_num)
      simp [isDigit]
      omega
    have hacc1 : ∀ c ∈ (48 + n % 10) :: acc, isDigit c = true := by
      intro c hc
      rcases List.mem_cons.mp hc with rfl | hc
      · exact hd
      · exact hacc c hc
    unfold decAux
    split_ifs
    · exact hacc1
    · exact ih _ _ hacc1

theorem decAux_ne_nil (fuel n : Nat) (acc : Str) : decAux (fuel + 1) n acc ≠ [] := by
  induction fuel generalizing n acc with
  | zero => simp [decAux]
  | succ fuel ih =>
    unfold decAux
    split_ifs
    · simp
    · exact ih _ _

theorem natToDec_digits (n : Nat) : ∀ c ∈ natToDec n, isDigit c = true :=
  decAux_digits _ _ _ (by simp)

theorem natToDec_ne_nil (n : Nat) : natToDec n ≠ [] := decAux_ne_nil _ _ _

theorem scanInt_digits (ds : Str) (hne : ds ≠ []) (hd : ∀ c ∈ ds, isDigit c = true) :
    scanInt ds = some (false, digitsVal ds) := by
  obtain ⟨c, cs, rfl⟩ := List.exists_cons_of_ne_nil hne
  have hc : isDigit c = true := hd c (List.mem_cons_self _ _)
  have hc' : 48 ≤ c ∧ c ≤ 57 := by simpa [isDigit] using hc
  have hsp : isSpace c = false := by
    simp [isSpace]
    omega
  have h45 : ¬ c = 45 := by omega
  have h43 : ¬ c = 43 := by omega
  have htw : List.takeWhile isDigit (c :: cs) = c :: cs := by
    rw [List.takeWhile_eq_self_iff]
    exact hd
  simp [scanInt, List.dropWhile, hsp, h45, h43, htw]

theorem scanInt_neg_digits (ds : Str) (hne : ds ≠ []) (hd : ∀ c ∈ ds, isDigit c = true) :
    scanInt (45 :: ds) = some (true, digitsVal ds) := by
  have htw : List.takeWhile isDigit ds = ds := by
    rw [List.takeWhile_eq_self_iff]
    exact hd
  have hsp : isSpace 45 = false := by decide
  simp [scanInt, List.dropWhile, hsp, htw, hne]

theorem scanInt_intToDec (x : Int) :
    scanInt (intToDec x) = some (decide (x < 0), x.natAbs) := by
  unfold intToDec
  by_cases hx : x < 0
  · rw [if_pos hx, scanInt_neg_digits _ (natToDec_ne_nil _) (natToDec_digits _),
      digitsVal_natToDec]
    simp [hx]
  · rw [if_neg hx, scanInt_digits _ (natToDec_ne_nil _) (natToDec_digits _),
      digitsVal_natToDec]
    simp [hx]

theorem signed_natAbs (x : Int) :
    (if decide (x < 0) = true then -(x.natAbs : Int) else (x.natAbs : Int)) = x := by
  by_cases hx : x < 0
  · rw [if_pos (decide_eq_true hx)]; omega
  · rw [if_neg (by simpa using hx)]; omega

theorem stoi_intToDec (x : Int) (h : inInt x) : stoi (intToDec x) = .ok x := by
  unfold inInt at h
  unfold stoi
  rw [scanInt_intToDec]
  dsimp only
  rw [signed_natAbs, if_pos h]

theorem stoll_intToDec (x : Int) (h : inLL x) : stoll (intToDec x) = .ok x := by
  unfold inLL at h
  unfold stoll
  rw [scanInt_intToDec]
  dsimp only
  rw [signed_natAbs, if_pos h]

theorem stoull_natToDec (n : Nat) (h : n < 2 ^ 64) : stoull (natToDec n) = .ok n := by
  unfold stoull
  rw [scanInt_digits _ (natToDec_ne_nil _) (natToDec_digits _), digitsVal_natToDec]
  have h1 : n ≤ 2 ^ 64 - 1 := by omega
  dsimp only
  rw [if_pos h1]
  rfl


/-! ### Record codec -/

theorem splitLoop_cons (parts : List Str) (cur : Str) (e : Bool) (c : Nat) (cs : Str) :
    Account.splitLoop parts cur e (c :: cs)
      = if (!e && c = 92) = true then Account.splitLoop parts cur true cs
        else if (!e && c = 124) = true then Account.splitLoop (parts ++ [cur]) [] false cs
        else Account.splitLoop parts (cur ++ [c]) false cs := by
  rw [Account.splitLoop]

theorem splitLoop_plain (s : Str) (hs : ∀ c ∈ s, c ≠ 92 ∧ c ≠ 124) (parts : List Str)
    (cur rest : Str) :
    Account.splitLoop parts cur false (s ++ rest)
      = Account.splitLoop parts (cur ++ s) false rest := by
  induction s generalizing cur with
  | nil => simp
  | cons c cs ih =>
    have hc := hs c (List.mem_cons_self _ _)
    have hcs : ∀ d ∈ cs, d ≠ 92 ∧ d ≠ 124 := fun d hd => hs d (List.mem_cons_of_mem _ hd)
    rw [List.cons_append, splitLoop_cons, if_neg (by simp [hc.1]), if_neg (by simp [hc.2]),
      ih hcs]
    simp

theorem splitLoop_bar (parts : List Str) (cur rest : Str) :
    Account.splitLoop parts cur false (124 :: rest)
      = Account.splitLoop (parts ++ [cur]) [] false rest := by
  rw [splitLoop_cons, if_neg (by simp), if_pos (by simp)]

theorem splitLoop_esc (name : Str) (parts : List Str) (cur rest : Str) :
    Account.splitLoop parts cur false (Account.esc name ++ rest)
      = Account.splitLoop parts (cur ++ name) false rest := by
  induction name generalizing cur with
  | nil => simp [Account.esc]
  | cons c cs ih =>
    unfold Account.esc
    by_cases hc : c = 92 ∨ c = 124 ∨ c = 10 ∨ c = 13
    · rw [if_pos hc, List.cons_append, List.cons_append, splitLoop_cons, if_pos (by simp),
        splitLoop_cons, if_neg (by simp), if_neg (by simp), ih]
      simp
    · rw [if_neg hc]
      have h1 : c ≠ 92 := fun h => hc (Or.inl h)
      have h2 : c ≠ 124 := fun h => hc (Or.inr (Or.inl h))
      rw [List.cons_append, splitLoop_cons, if_neg (by simp [h1]), if_neg (by simp [h2]), ih]
      simp

theorem digit_plain (c : Nat) (h : isDigit c = true) : c ≠ 92 ∧ c ≠ 124 := by
  have : 48 ≤ c ∧ c ≤ 57 := by simpa [isDigit] using h
  omega

theorem natToDec_plain (n : Nat) : ∀ c ∈ natToDec n, c ≠ 92 ∧ c ≠ 124 :=
  fun c hc => digit_plain c (natToDec_digits n c hc)

theorem intToDec_plain (x : Int) : ∀ c ∈ intToDec x, c ≠ 92 ∧ c ≠ 124 := by
  intro c hc
  unfold intToDec at hc
  split_ifs at hc
  · rcases List.mem_cons.mp hc with rfl | hc
    · decide
    · exact natToDec_plain _ c hc
  · exact natToDec_plain _ c hc

theorem serialize_eq (a : Account) :
    a.serialize = intToDec a.id_ ++ (124 :: (Account.esc a.name_ ++
      (124 :: (intToDec a.balance_paise_ ++ (124 :: (natToDec a.pin_hash_ ++ [])))))) := by
  simp [Account.serialize]

theorem splitLoop_serialize (a : Account) :
    Account.splitLoop [] [] false a.serialize
      = ([intToDec a.id_, a.name_, intToDec a.balance_paise_], natToDec a.pin_hash_) := by
  rw [serialize_eq, splitLoop_plain _ (intToDec_plain _), splitLoop_bar, splitLoop_esc,
    splitLoop_bar, splitLoop_plain _ (intToDec_plain _), splitLoop_bar,
    splitLoop_plain _ (natToDec_plain _)]
  simp [Account.splitLoop]

theorem deserialize_serialize (a : Account) (h : a.typed) :
    Account.deserialize a.serialize = .ok { a with name_ := Account.unesc a.name_ } := by
  obtain ⟨h1, _, h3, h4⟩ := h
  unfold Account.deserialize
  rw [splitLoop_serialize]
  simp only [List.cons_append, List.nil_append]
  rw [stoi_intToDec _ h1, stoll_intToDec _ h3, stoull_natToDec _ h4]

theorem unescLoop_plain (s : Str) (h : 92 ∉ s) : Account.unescLoop false s = s := by
  induction s with
  | nil => rfl
  | cons c cs ih =>
    have hc : ¬ c = 92 := fun e => h (e ▸ List.mem_cons_self _ _)
    have hcs : 92 ∉ cs := fun e => h (List.mem_cons_of_mem _ e)
    simp only [Account.unescLoop, if_neg hc, ih hcs]

/-! ### Persistence -/

theorem readLe32_le32 (n : Nat) (h : n < 2 ^ 32) : readLe32 (le32 n) = n := by
  simp only [readLe32, le32, List.getD_cons_zero, List.getD_cons_succ]
  omega

theorem le32_length (n : Nat) : (le32 n).length = 4 := rfl

theorem esc_bytes (s : Str) (h : isBytes s) : isBytes (Account.esc s) := by
  induction s with
  | nil => simpa [Account.esc] using h
  | cons c cs ih =>
    have hc : c < 256 := h c (List.mem_cons_self _ _)
    have hcs : isBytes cs := fun x hx => h x (List.mem_cons_of_mem _ hx)
    have ih' := ih hcs
    unfold Account.esc
    intro x hx
    split_ifs at hx
    · rcases List.mem_cons.mp hx with rfl | hx
      · norm_num
      · rcases List.mem_cons.mp hx with rfl | hx
        · exact hc
        · exact ih' x hx
    · rcases List.mem_cons.mp hx with rfl | hx
      · exact hc
      · exact ih' x hx

theorem natToDec_bytes (n : Nat) : isBytes (natToDec n) := by
  intro c hc
  have : 48 ≤ c ∧ c ≤ 57 := by simpa [isDigit] using natToDec_digits n c hc
  omega

theorem intToDec_bytes (x : Int) : isBytes (intToDec x) := by
  intro c hc
  unfold intToDec at hc
  split_ifs at hc
  · rcases List.mem_cons.mp hc with rfl | hc
    · norm_num
    · exact natToDec_bytes _ c hc
  · exact natToDec_bytes _ c hc

theorem serialize_bytes (a : Account) (h : isBytes a.name_) : isBytes a.serialize := by
  intro c hc
  rw [serialize_eq] at hc
  simp only [List.mem_append, List.mem_cons, List.not_mem_nil, or_false] at hc
  rcases hc with hc | rfl | hc | rfl | hc | rfl | hc
  · exact intToDec_bytes _ c hc
  · norm_num
  · exact esc_bytes _ h c hc
  · norm_num
  · exact intToDec_bytes _ c hc
  · norm_num
  · exact natToDec_bytes _ c hc

theorem serialize_ne_nil (a : Account) : a.serialize ≠ [] := by
  rw [serialize_eq]
  intro h
  have := congrArg List.length h
  simp at this

theorem loadLoop_step (key : Str) (fuel n : Nat) (enc rest : Str) (out : List Account)
    (hn : n < 2 ^ 32) (hlen : enc.length = n) :
    Persistence.loadLoop key (fuel + 1) (le32 n ++ enc ++ rest) out
      = if n > 2 ^ 24 then some (.error .PersistenceError)
        else if SimpleCipher.apply key enc = [] then Persistence.loadLoop key fuel rest out
        else
          match Account.deserialize (SimpleCipher.apply key enc) with
          | .error e => some (.error e)
          | .ok a => Persistence.loadLoop key fuel rest (out ++ [a]) := by
  have h4 : ¬ (le32 n ++ enc ++ rest).length < 4 := by simp [le32_length]
  have htake : (le32 n ++ enc ++ rest).take 4 = le32 n := by
    rw [List.append_assoc]
    exact List.take_left' (le32_length n)
  have hdrop : (le32 n ++ enc ++ rest).drop 4 = enc ++ rest := by
    rw [List.append_assoc]
    exact List.drop_left' (le32_length n)
  have hlen2 : ¬ (enc ++ rest).length < n := by simp [hlen]
  rw [Persistence.loadLoop, if_neg h4, htake, hdrop, readLe32_le32 n hn, if_neg hlen2,
    List.take_left' hlen, List.drop_left' hlen]

theorem loadLoop_saveBytes (key : Str) (accs : List Account) (out : List Account) (fuel : Nat)
    (hfuel : accs.length < fuel)
    (h : ∀ a ∈ accs, a.typed ∧ a.serialize.length ≤ 2 ^ 24) :
    Persistence.loadLoop key fuel (Persistence.saveBytes key accs) out
      = some (.ok (out ++ accs.map (fun a => { a with name_ := Account.unesc a.name_ }))) := by
  induction accs generalizing out fuel with
  | nil =>
    obtain ⟨f, rfl⟩ : ∃ f, fuel = f + 1 := ⟨fuel - 1, by simp at hfuel; omega⟩
    simp [Persistence.saveBytes, Persistence.loadLoop]
  | cons a rest ih =>
    obtain ⟨f, rfl⟩ : ∃ f, fuel = f + 1 := ⟨fuel - 1, by simp at hfuel; omega⟩
    obtain ⟨hty, hsz⟩ := h a (List.mem_cons_self _ _)
    have hrest : ∀ x ∈ rest, x.typed ∧ x.serialize.length ≤ 2 ^ 24 :=
      fun x hx => h x (List.mem_cons_of_mem _ hx)
    have hlen : (SimpleCipher.apply key a.serialize).length = a.serialize.length :=
      apply_length _ _
    have hlt : (SimpleCipher.apply key a.serialize).length < 2 ^ 32 := by
      rw [hlen]
      exact lt_of_le_of_lt hsz (by norm_num)
    have hmod : (SimpleCipher.apply key a.serialize).length % 2 ^ 32
        = (SimpleCipher.apply key a.serialize).length := Nat.mod_eq_of_lt hlt
    have hle : ¬ (SimpleCipher.apply key a.serialize).length > 2 ^ 24 := by
      rw [hlen]
      exact not_lt.mpr hsz
    have hinv : SimpleCipher.apply key (SimpleCipher.apply key a.serialize) = a.serialize :=
      apply_apply _ _ (serialize_bytes a hty.2.1)
    rw [Persistence.saveBytes, hmod, loadLoop_step key f _ _ _ out hlt rfl, if_neg hle, hinv,
      if_neg (serialize_ne_nil a), deserialize_serialize a hty]
    simp only
    rw [ih (out ++ [_]) f (by simpa using hfuel) hrest]
    simp

theorem saveBytes_length (key : Str) (accs : List Account) :
    accs.length ≤ (Persistence.saveBytes key accs).length := by
  induction accs with
  | nil => simp
  | cons a rest ih =>
    simp only [Persistence.saveBytes, List.length_append, le32_length, List.length_cons]
    omega

theorem loadBytes_saveBytes (key : Str) (accs : List Account)
    (h : ∀ a ∈ accs, a.typed ∧ a.serialize.length ≤ 2 ^ 24) :
    Persistence.loadBytes key (Persistence.saveBytes key accs)
      = .ok (accs.map (fun a => { a with name_ := Account.unesc a.name_ })) := by
  unfold Persistence.loadBytes
  rw [loadLoop_saveBytes key accs [] _ (Nat.lt_succ_of_le (saveBytes_length key accs)) h]
  simp

theorem loadLoop_total (key : Str) (fuel : Nat) (bytes : Str) (out : List Account)
    (h : bytes.length < fuel) : (Persistence.loadLoop key fuel bytes out).isSome = true := by
  induction fuel generalizing bytes out with
  | zero => omega
  | succ fuel ih =>
    rw [Persistence.loadLoop]
    split_ifs with h1 h2 h3 h4
    · rfl
    · rfl
    · rfl
    · apply ih
      simp only [List.length_drop]
      omega
    · split
      · rfl
      · apply ih
        simp only [List.length_drop]
        omega

/-! ### Well-formed ledgers -/

theorem wrap64_inLL (x : Int) : inLL (wrap64 x) := by
  unfold inLL wrap64
  omega

theorem wrap32_inInt (x : Int) : inInt (wrap32 x) := by
  unfold inInt wrap32
  omega

theorem find_some_mem (m : List (Int × Account)) (id : Int) (a : Account)
    (h : Bank.find m id = some a) : (id, a) ∈ m := by
  induction m with
  | nil => simp [Bank.find] at h
  | cons e rest ih =>
    obtain ⟨k, v⟩ := e
    by_cases hk : k = id
    · simp only [Bank.find, if_pos hk, Option.some.injEq] at h
      simp [hk, h]
    · simp only [Bank.find, if_neg hk] at h
      exact List.mem_cons_of_mem _ (ih h)

theorem find_none_not_mem (m : List (Int × Account)) (id : Int)
    (h : Bank.find m id = none) : id ∉ m.map Prod.fst := by
  induction m with
  | nil => simp
  | cons e rest ih =>
    obtain ⟨k, v⟩ := e
    by_cases hk : k = id
    · simp [Bank.find, hk] at h
    · simp only [Bank.find, if_neg hk] at h
      simp only [List.map_cons, List.mem_cons, not_or]
      exact ⟨fun e => hk e.symm, ih h⟩

theorem mem_assign (m : List (Int × Account)) (id : Int) (a1 : Account) (e : Int × Account)
    (he : e ∈ Bank.assign m id a1) : e ∈ m ∨ e = (id, a1) := by
  induction m with
  | nil => simp [Bank.assign] at he
  | cons e0 rest ih =>
    obtain ⟨k, v⟩ := e0
    by_cases hk : k = id
    · simp only [Bank.assign, if_pos hk, List.mem_cons] at he
      rcases he with he | he
      · right; rw [he, hk]
      · rcases ih he with h | h
        · left; exact List.mem_cons_of_mem _ h
        · right; exact h
    · simp only [Bank.assign, if_neg hk, List.mem_cons] at he
      rcases he with he | he
      · left; rw [he]; exact List.mem_cons_self _ _
      · rcases ih he with h | h
        · left; exact List.mem_cons_of_mem _ h
        · right; exact h

theorem wf_persist (b : Bank) (h : b.wf) : (Bank.persist b).wf := h

theorem wf_assign (b : Bank) (id : Int) (a1 : Account) (h : b.wf) (hid : a1.id_ = id)
    (hty : a1.typed) : Bank.wf { b with accounts_ := Bank.assign b.accounts_ id a1 } := by
  obtain ⟨h1, h2, h3⟩ := h
  refine ⟨?_, ?_, h3⟩
  · intro e he
    rcases mem_assign _ _ _ _ he with he | rfl
    · exact h1 e he
    · exact ⟨hid, hty⟩
  · show ((Bank.assign b.accounts_ id a1).map Prod.fst).Nodup
    rw [assign_keys]
    exact h2

theorem wf_emplace (b : Bank) (a : Account) (nid : Int) (h : b.wf) (hty : a.typed)
    (hn : inInt nid) :
    Bank.wf { b with next_id_ := nid, accounts_ := Bank.emplace b.accounts_ a.id_ a } := by
  obtain ⟨h1, h2, _⟩ := h
  unfold Bank.emplace
  cases hf : Bank.find b.accounts_ a.id_ with
  | some v => exact ⟨h1, h2, hn⟩
  | none =>
    refine ⟨?_, ?_, hn⟩
    · intro e he
      simp only [Option.isSome_none, Bool.false_eq_true, if_false, List.mem_append,
        List.mem_singleton] at he
      rcases he with he | rfl
      · exact h1 e he
      · exact ⟨rfl, hty⟩
    · simp only [Option.isSome_none, Bool.false_eq_true, if_false, List.map_append,
        List.map_cons, List.map_nil]
      rw [List.nodup_append]
      refine ⟨h2, List.nodup_singleton _, ?_⟩
      intro x hx hx'
      rw [List.mem_singleton] at hx'
      subst hx'
      exact find_none_not_mem _ _ hf hx

theorem wf_withdraw_account (a a1 : Account) (paise : Int) (hty : a.typed)
    (h : a.withdraw paise = .ok a1) : a1.id_ = a.id_ ∧ a1.typed := by
  unfold Account.withdraw at h
  split_ifs at h
  simp only [Except.ok.injEq] at h
  subst h
  exact ⟨rfl, hty.1, hty.2.1, wrap64_inLL _, hty.2.2.2⟩

theorem wf_deposit_account (a a1 : Account) (paise : Int) (hty : a.typed)
    (h : a.deposit paise = .ok a1) : a1.id_ = a.id_ ∧ a1.typed := by
  unfold Account.deposit at h
  split_ifs at h
  simp only [Except.ok.injEq] at h
  subst h
  exact ⟨rfl, hty.1, hty.2.1, wrap64_inLL _, hty.2.2.2⟩

theorem wf_find (b : Bank) (id : Int) (a : Account) (h : b.wf)
    (hf : Bank.find b.accounts_ id = some a) : a.id_ = id ∧ a.typed :=
  h.1 (id, a) (find_some_mem _ _ _ hf)

theorem wf_step (H : Str → Nat) (b : Bank) (op : Bank.Op) (h : b.wf) (hop : op.typed) :
    (Bank.step H b op).wf := by
  cases op with
  | open_account name pin initial_paise =>
    obtain ⟨hn, _, hi⟩ := hop
    simp only [Bank.step, Bank.open_account]
    split_ifs
    · exact h
    · exact h
    · exact h
    · apply wf_persist
      exact wf_emplace b ⟨b.next_id_, name, initial_paise, Bank.hash_pin H b.salt_ pin⟩ _ h
        ⟨h.2.2, hn, hi, Nat.mod_lt _ (by norm_num)⟩ (wrap32_inInt _)
  | deposit id paise =>
    simp only [Bank.step, Bank.deposit]
    cases hf : Bank.find b.accounts_ id with
    | none => exact h
    | some a =>
      obtain ⟨hid, hty⟩ := wf_find b id a h hf
      simp only
      cases hd : a.deposit paise with
      | error e => exact h
      | ok a1 =>
        obtain ⟨hid1, hty1⟩ := wf_deposit_account a a1 paise hty hd
        exact wf_persist _ (wf_assign b id a1 h (hid1.trans hid) hty1)
  | withdraw id pin paise =>
    simp only [Bank.step, Bank.withdraw]
    cases hf : Bank.find b.accounts_ id with
    | none => exact h
    | some a =>
      obtain ⟨hid, hty⟩ := wf_find b id a h hf
      simp only
      split_ifs
      · exact h
      · cases hd : a.withdraw paise with
        | error e => exact h
        | ok a1 =>
          obtain ⟨hid1, hty1⟩ := wf_withdraw_account a a1 paise hty hd
          exact wf_persist _ (wf_assign b id a1 h (hid1.trans hid) hty1)
  | transfer fromId pin toId paise =>
    simp only [Bank.step, Bank.transfer]
    split_ifs
    · exact h
    · exact h
    · cases hf : Bank.find b.accounts_ fromId with
      | none => exact h
      | some fa =>
        obtain ⟨hid, hty⟩ := wf_find b fromId fa h hf
        cases ht : Bank.find b.accounts_ toId with
        | none => exact h
        | some ta =>
          obtain ⟨hidt, htyt⟩ := wf_find b toId ta h ht
          simp only
          split_ifs
          · exact h
          · cases hw : fa.withdraw paise with
            | error e => exact h
            | ok fa1 =>
              obtain ⟨hid1, hty1⟩ := wf_withdraw_account fa fa1 paise hty hw
              have hb1 := wf_assign b fromId fa1 h (hid1.trans hid) hty1
              cases hd : ta.deposit paise with
              | error e => exact hb1
              | ok ta1 =>
                obtain ⟨hid2, hty2⟩ := wf_deposit_account ta ta1 paise htyt hd
                exact wf_persist _ (wf_assign _ toId ta1 hb1 (hid2.trans hidt) hty2)

theorem wf_run (H : Str → Nat) (ops : List Bank.Op) (b : Bank) (h : b.wf)
    (hops : ∀ op ∈ ops, op.typed) : (Bank.run H b ops).wf := by
  induction ops generalizing b with
  | nil => exact h
  | cons op rest ih =>
    simp only [Bank.run, List.foldl_cons]
    exact ih _ (wf_step H b op h (hops op (List.mem_cons_self _ _)))
      (fun o ho => hops o (List.mem_cons_of_mem _ ho))

theorem wf_empty (key salt : Str) : (Bank.empty key salt).wf := by
  refine ⟨?_, ?_, ?_⟩
  · intro e he
    simp [Bank.empty] at he
  · simp [Bank.empty]
  · unfold inInt Bank.empty
    norm_num

/-! ### Reload -/

theorem find_none_of_not_mem (m : List (Int × Account)) (id : Int)
    (h : id ∉ m.map Prod.fst) : Bank.find m id = none := by
  induction m with
  | nil => rfl
  | cons e rest ih =>
    obtain ⟨k, v⟩ := e
    simp only [List.map_cons, List.mem_cons, not_or] at h
    have hk : ¬ k = id := fun e => h.1 e.symm
    simp only [Bank.find, if_neg hk]
    exact ih h.2

theorem initLoop_fresh (l : List Account) (m : List (Int × Account)) (nid : Int)
    (hnd : (l.map (fun a => a.id_)).Nodup) (hm : ∀ a ∈ l, a.id_ ∉ m.map Prod.fst) :
    (Bank.initLoop l m nid).1 = m ++ l.map (fun a => (a.id_, a)) := by
  induction l generalizing m nid with
  | nil => simp [Bank.initLoop]
  | cons a rest ih =>
    have hfa : Bank.find m a.id_ = none :=
      find_none_of_not_mem m a.id_ (hm a (List.mem_cons_self _ _))
    have hem : Bank.emplace m a.id_ a = m ++ [(a.id_, a)] := by simp [Bank.emplace, hfa]
    rw [List.map_cons, List.nodup_cons] at hnd
    rw [Bank.initLoop, hem, ih _ _ hnd.2]
    · simp
    · intro x hx
      simp only [List.map_append, List.map_cons, List.map_nil, List.mem_append,
        List.mem_singleton, not_or]
      refine ⟨hm x (List.mem_cons_of_mem _ hx), ?_⟩
      intro hxa
      exact hnd.1 (hxa ▸ List.mem_map_of_mem (fun a => a.id_) hx)

theorem snapshot_sorted (b : Bank) : List.Sorted (fun x y => x.id_ ≤ y.id_) b.snapshot :=
  List.sorted_insertionSort _ _

theorem snapshot_perm (b : Bank) : List.Perm b.snapshot (b.accounts_.map Prod.snd) :=
  List.perm_insertionSort _ _

theorem snapshot_typed (b : Bank) (h : b.wf) : ∀ a ∈ b.snapshot, a.typed := by
  intro a ha
  have ha' : a ∈ b.accounts_.map Prod.snd := (snapshot_perm b).mem_iff.mp ha
  obtain ⟨e, he, rfl⟩ := List.mem_map.mp ha'
  exact (h.1 e he).2

theorem snapshot_ids_nodup (b : Bank) (h : b.wf) :
    (b.snapshot.map (fun a => a.id_)).Nodup := by
  have hp := (snapshot_perm b).map (fun a => a.id_)
  rw [hp.nodup_iff]
  have : (b.accounts_.map Prod.snd).map (fun a => a.id_) = b.accounts_.map Prod.fst := by
    rw [List.map_map]
    apply List.map_congr_left
    intro e he
    exact (h.1 e he).1
  rw [this]
  exact h.2.1

theorem map_unesc_plain (l : List Account) (h : ∀ a ∈ l, 92 ∉ a.name_) :
    l.map (fun a => { a with name_ := Account.unesc a.name_ }) = l := by
  induction l with
  | nil => rfl
  | cons a rest ih =>
    have ha : Account.unesc a.name_ = a.name_ :=
      unescLoop_plain _ (h a (List.mem_cons_self _ _))
    simp only [List.map_cons, ha, ih (fun x hx => h x (List.mem_cons_of_mem _ hx))]

theorem reload_of_wf (b : Bank) (key salt : Str) (h : b.wf)
    (hsize : ∀ a ∈ b.list_accounts, a.serialize.length ≤ 2 ^ 24)
    (hname : ∀ a ∈ b.list_accounts, 92 ∉ a.name_) :
    Persistence.loadBytes key (Persistence.saveBytes key b.list_accounts) = .ok b.list_accounts ∧
    ∃ b1, Bank.create ⟨key, some (Persistence.saveBytes key b.list_accounts)⟩ salt = .ok b1 ∧
      b1.list_accounts = b.list_accounts := by
  simp only [Bank.list_accounts] at hsize hname ⊢
  have hload : Persistence.loadBytes key (Persistence.saveBytes key b.snapshot)
      = .ok b.snapshot := by
    rw [loadBytes_saveBytes key _ (fun a ha => ⟨snapshot_typed b h a ha, hsize a ha⟩),
      map_unesc_plain _ hname]
  refine ⟨hload, ?_⟩
  have hcreate : Bank.create ⟨key, some (Persistence.saveBytes key b.snapshot)⟩ salt
      = .ok ⟨(Bank.initLoop b.snapshot [] 1001).1,
          ⟨key, some (Persistence.saveBytes key b.snapshot)⟩, salt,
          (Bank.initLoop b.snapshot [] 1001).2⟩ := by
    simp only [Bank.create, Persistence.load, hload]
  refine ⟨_, hcreate, ?_⟩
  have hinit := initLoop_fresh b.snapshot [] 1001 (snapshot_ids_nodup b h) (by simp)
  have hid : (Prod.snd ∘ fun a : Account => (a.id_, a)) = id := rfl
  show List.insertionSort _ (List.map Prod.snd (Bank.initLoop b.snapshot [] 1001).1) = _
  rw [hinit, List.nil_append, List.map_map, hid, List.map_id]
  exact List.Sorted.insertionSort_eq (snapshot_sorted b)

theorem loadBytes_oversize (key : Str) (a : Account) (rest : List Account)
    (h1 : 2 ^ 24 < a.serialize.length) (h2 : a.serialize.length < 2 ^ 32) :
    Persistence.loadBytes key (Persistence.saveBytes key (a :: rest))
      = .error .PersistenceError := by
  have hlen : (SimpleCipher.apply key a.serialize).length = a.serialize.length :=
    apply_length _ _
  have hlt : (SimpleCipher.apply key a.serialize).length < 2 ^ 32 := by rw [hlen]; exact h2
  have hgt : (SimpleCipher.apply key a.serialize).length > 2 ^ 24 := by rw [hlen]; exact h1
  unfold Persistence.loadBytes
  rw [Persistence.saveBytes, Nat.mod_eq_of_lt hlt, loadLoop_step key _ _ _ _ [] hlt rfl,
    if_pos hgt]

theorem esc_replicate (n : Nat) : Account.esc (List.replicate n 65) = List.replicate n 65 := by
  induction n with
  | zero => rfl
  | succ n ih =>
    rw [List.replicate_succ, Account.esc, if_neg (by decide), ih]

theorem oversize_name_reload_fails (name : Str) (hesc : Account.esc name = name)
    (hlen : name.length = 16777216) :
    Persistence.loadBytes (ascii "k") (Persistence.saveBytes (ascii "k")
      (Bank.run sampleHash (Bank.empty (ascii "k") (ascii "s"))
        [.open_account name (ascii "1234") 0]).list_accounts)
      = .error .PersistenceError := by
  have hne : name ≠ [] := by
    intro h
    rw [h] at hlen
    simp at hlen
  have hpin : ¬ (ascii "1234").length < 4 := by decide
  have hl : (Bank.run sampleHash (Bank.empty (ascii "k") (ascii "s"))
      [.open_account name (ascii "1234") 0]).list_accounts
      = [⟨1001, name, 0, Bank.hash_pin sampleHash (ascii "s") (ascii "1234")⟩] := by
    simp only [Bank.run, List.foldl_cons, List.foldl_nil, Bank.step, Bank.open_account,
      if_neg hne, if_neg hpin, lt_self_iff_false, if_false, Bank.list_accounts, Bank.snapshot,
      Bank.persist, Bank.empty, Bank.emplace, Bank.find, Option.isSome_none, Bool.false_eq_true,
      List.nil_append, List.map_cons, List.map_nil, List.insertionSort, List.orderedInsert]
  have h1 : (intToDec 1001).length = 4 := by decide
  have h2 : (intToDec 0).length = 1 := by decide
  have h3 : (natToDec (Bank.hash_pin sampleHash (ascii "s") (ascii "1234"))).length ≤ 20 := by
    decide
  rw [hl]
  apply loadBytes_oversize
  · rw [serialize_eq]
    simp only [List.length_append, List.length_cons, hesc, hlen]
    omega
  · rw [serialize_eq]
    simp only [List.length_append, List.length_cons, hesc, hlen, h1, h2, List.length_nil]
    omega

/-! ### Ledgers constructed from a file -/

theorem applyFrom_bytes (key : List Nat) (s : Str) (i : Nat) :
    isBytes (SimpleCipher.applyFrom key i s) := by
  induction s generalizing i with
  | nil => intro c hc; simp [SimpleCipher.applyFrom] at hc
  | cons c cs ih =>
    intro x hx
    simp only [SimpleCipher.applyFrom, List.mem_cons] at hx
    rcases hx with rfl | hx
    · exact Nat.mod_lt _ (by norm_num)
    · exact ih (i + 1) x hx

theorem apply_bytes (k s : Str) : isBytes (SimpleCipher.apply k s) := applyFrom_bytes _ s 0

theorem unescLoop_subset (e : Bool) (s : Str) : ∀ c ∈ Account.unescLoop e s, c ∈ s := by
  induction s generalizing e with
  | nil => intro c hc; simp [Account.unescLoop] at hc
  | cons d ds ih =>
    intro c hc
    cases e with
    | true =>
      simp only [Account.unescLoop, List.mem_cons] at hc
      rcases hc with rfl | hc
      · exact List.mem_cons_self _ _
      · exact List.mem_cons_of_mem _ (ih false c hc)
    | false =>
      simp only [Account.unescLoop] at hc
      split_ifs at hc
      · exact List.mem_cons_of_mem _ (ih true c hc)
      · rcases List.mem_cons.mp hc with rfl | hc
        · exact List.mem_cons_self _ _
        · exact List.mem_cons_of_mem _ (ih false c hc)

theorem splitLoop_bytes (line : Str) (parts : List Str) (cur : Str) (e : Bool)
    (hl : isBytes line) (hp : ∀ p ∈ parts, isBytes p) (hc : isBytes cur) :
    (∀ p ∈ (Account.splitLoop parts cur e line).1, isBytes p) ∧
      isBytes (Account.splitLoop parts cur e line).2 := by
  induction line generalizing parts cur e with
  | nil => exact ⟨hp, hc⟩
  | cons c cs ih =>
    have hc0 : c < 256 := hl c (List.mem_cons_self _ _)
    have hcs : isBytes cs := fun x hx => hl x (List.mem_cons_of_mem _ hx)
    rw [splitLoop_cons]
    split_ifs
    · exact ih parts cur true hcs hp hc
    · apply ih _ _ false hcs _ (by intro x hx; simp at hx)
      intro p hp'
      rcases List.mem_append.mp hp' with h | h
      · exact hp p h
      · rw [List.mem_singleton] at h
        rw [h]
        exact hc
    · apply ih _ _ false hcs hp
      intro x hx
      rcases List.mem_append.mp hx with h | h
      · exact hc x h
      · rw [List.mem_singleton] at h
        rw [h]
        exact hc0

theorem stoi_inInt (s : Str) (v : Int) (h : stoi s = .ok v) : inInt v := by
  unfold stoi at h
  split at h
  · simp at h
  · rename_i neg m _
    dsimp only at h
    generalize (if neg = true then -(m : Int) else (m : Int)) = w at h
    split_ifs at h with hr
    simp only [Except.ok.injEq] at h
    rw [← h]
    exact hr

theorem stoll_inLL (s : Str) (v : Int) (h : stoll s = .ok v) : inLL v := by
  unfold stoll at h
  split at h
  · simp at h
  · rename_i neg m _
    dsimp only at h
    generalize (if neg = true then -(m : Int) else (m : Int)) = w at h
    split_ifs at h with hr
    simp only [Except.ok.injEq] at h
    rw [← h]
    exact hr

theorem stoull_lt (s : Str) (v : Nat) (h : stoull s = .ok v) : v < 2 ^ 64 := by
  unfold stoull at h
  split at h
  · simp at h
  · split_ifs at h with hr hn
    · simp only [Except.ok.injEq] at h
      rw [← h]
      exact Nat.mod_lt _ (by norm_num)
    · simp only [Except.ok.injEq] at h
      rw [← h]
      omega

theorem deserialize_typed (line : Str) (a : Account) (hl : isBytes line)
    (h : Account.deserialize line = .ok a) : a.typed := by
  unfold Account.deserialize at h
  have hb := splitLoop_bytes line [] [] false hl (by simp) (by intro x hx; simp at hx)
  dsimp only at h
  split at h
  · rename_i p0 p1 p2 p3 heq
    have hp1 : isBytes p1 := by
      have hmem : p1 ∈ (Account.splitLoop [] [] false line).1 ++
          [(Account.splitLoop [] [] false line).2] := by
        rw [heq]
        simp
      rcases List.mem_append.mp hmem with hm | hm
      · exact hb.1 p1 hm
      · rw [List.mem_singleton] at hm
        rw [hm]
        exact hb.2
    cases h0 : stoi p0 with
    | error e => simp [h0] at h
    | ok id =>
      cases h2 : stoll p2 with
      | error e => simp [h0, h2] at h
      | ok bal =>
        cases h3 : stoull p3 with
        | error e => simp [h0, h2, h3] at h
        | ok ph =>
          simp only [h0, h2, h3, Except.ok.injEq] at h
          rw [← h]
          exact ⟨stoi_inInt _ _ h0, fun c hc => hp1 c (unescLoop_subset false p1 c hc),
            stoll_inLL _ _ h2, stoull_lt _ _ h3⟩
  · simp at h

theorem loadLoop_typed (key : Str) (fuel : Nat) (bytes : Str) (out l : List Account)
    (hout : ∀ a ∈ out, a.typed)
    (h : Persistence.loadLoop key fuel bytes out = some (.ok l)) : ∀ a ∈ l, a.typed := by
  induction fuel generalizing bytes out with
  | zero => simp [Persistence.loadLoop] at h
  | succ fuel ih =>
    rw [Persistence.loadLoop] at h
    split_ifs at h with h1 h2 h3 h4
    · simp only [Option.some.injEq, Except.ok.injEq] at h
      rw [← h]
      exact hout
    · simp at h
    · simp at h
    · exact ih _ _ hout h
    · split at h
      · simp at h
      · rename_i a ha
        apply ih _ _ _ h
        intro x hx
        rcases List.mem_append.mp hx with hx | hx
        · exact hout x hx
        · rw [List.mem_singleton] at hx
          rw [hx]
          exact deserialize_typed _ a (apply_bytes _ _) ha

theorem load_typed (store : Persistence) (l : List Account) (h : store.load = .ok l) :
    ∀ a ∈ l, a.typed := by
  unfold Persistence.load at h
  split at h
  · simp only [Except.ok.injEq] at h
    rw [← h]
    simp
  · rename_i bytes _
    unfold Persistence.loadBytes at h
    split at h
    · rename_i r hr
      rw [h] at hr
      exact loadLoop_typed _ _ _ [] l (by simp) hr
    · simp at h

theorem initLoop_wf (l : List Account) (m : List (Int × Account)) (nid : Int) (store : Persistence)
    (salt : Str) (hl : ∀ a ∈ l, a.typed) (h : Bank.wf ⟨m, store, salt, nid⟩) :
    Bank.wf ⟨(Bank.initLoop l m nid).1, store, salt, (Bank.initLoop l m nid).2⟩ := by
  induction l generalizing m nid with
  | nil => exact h
  | cons a rest ih =>
    rw [Bank.initLoop]
    apply ih _ _ (fun x hx => hl x (List.mem_cons_of_mem _ hx))
    have hmax : inInt (max nid (wrap32 (a.id_ + 1))) := by
      rcases max_choice nid (wrap32 (a.id_ + 1)) with e | e
      · rw [e]; exact h.2.2
      · rw [e]; exact wrap32_inInt _
    exact wf_emplace ⟨m, store, salt, nid⟩ a _ h (hl a (List.mem_cons_self _ _)) hmax

theorem wf_create (store : Persistence) (salt : Str) (b : Bank)
    (h : Bank.create store salt = .ok b) : b.wf := by
  unfold Bank.create at h
  split at h
  · simp at h
  · rename_i loaded hload
    simp only [Except.ok.injEq] at h
    rw [← h]
    apply initLoop_wf loaded [] 1001 store salt (load_typed store loaded hload)
    refine ⟨by intro e he; simp at he, by simp, ?_⟩
    unfold inInt
    norm_num

theorem step_key (H : Str → Nat) (b : Bank) (op : Bank.Op) :
    (Bank.step H b op).store_.key = b.store_.key ∧ (Bank.step H b op).salt_ = b.salt_ := by
  cases op with
  | open_account name pin initial_paise =>
    simp only [Bank.step, Bank.open_account]
    split_ifs <;> exact ⟨rfl, rfl⟩
  | deposit id paise =>
    simp only [Bank.step, Bank.deposit]
    split
    · exact ⟨rfl, rfl⟩
    · split <;> exact ⟨rfl, rfl⟩
  | withdraw id pin paise =>
    simp only [Bank.step, Bank.withdraw]
    split
    · exact ⟨rfl, rfl⟩
    · split_ifs
      · exact ⟨rfl, rfl⟩
      · split <;> exact ⟨rfl, rfl⟩
  | transfer fromId pin toId paise =>
    simp only [Bank.step, Bank.transfer]
    split_ifs
    · exact ⟨rfl, rfl⟩
    · exact ⟨rfl, rfl⟩
    · split
      · exact ⟨rfl, rfl⟩
      · split
        · exact ⟨rfl, rfl⟩
        · split_ifs
          · exact ⟨rfl, rfl⟩
          · split
            · exact ⟨rfl, rfl⟩
            · split <;> exact ⟨rfl, rfl⟩

theorem run_key (H : Str → Nat) (ops : List Bank.Op) (b : Bank) :
    (Bank.run H b ops).store_.key = b.store_.key ∧ (Bank.run H b ops).salt_ = b.salt_ := by
  induction ops generalizing b with
  | nil => exact ⟨rfl, rfl⟩
  | cons op rest ih =>
    simp only [Bank.run, List.foldl_cons]
    have h1 := ih (Bank.step H b op)
    have h2 := step_key H b op
    simp only [Bank.run] at h1
    exact ⟨h1.1.trans h2.1, h1.2.trans h2.2⟩

theorem create_store (store : Persistence) (salt : Str) (b : Bank)
    (h : Bank.create store salt = .ok b) : b.store_ = store ∧ b.salt_ = salt := by
  unfold Bank.create at h
  split at h
  · simp at h
  · simp only [Except.ok.injEq] at h
    rw [← h]
    exact ⟨rfl, rfl⟩

theorem deserialize_serialize_fields (a : Account) (h1 : inInt a.id_)
    (h3 : inLL a.balance_paise_) (h4 : a.pin_hash_ < 2 ^ 64) :
    Account.deserialize a.serialize = .ok { a with name_ := Account.unesc a.name_ } := by
  unfold Account.deserialize
  rw [splitLoop_serialize]
  simp only [List.cons_append, List.nil_append]
  rw [stoi_intToDec _ h1, stoll_intToDec _ h3, stoull_natToDec _ h4]

theorem deposit_exact_in_range (b : Bank) (id : Int) (paise : Int) (a : Account)
    (hfind : Bank.find b.accounts_ id = some a) (hpos : 0 < paise)
    (hsum : inLL (a.balance_paise_ + paise)) :
    (Bank.deposit b id paise).1 = .ok () ∧
    Bank.find (Bank.deposit b id paise).2.accounts_ id
      = some { a with balance_paise_ := a.balance_paise_ + paise } ∧
    (∀ k, k ≠ id → Bank.find (Bank.deposit b id paise).2.accounts_ k = Bank.find b.accounts_ k) ∧
    (Bank.deposit b id paise).2.accounts_.map Prod.fst = b.accounts_.map Prod.fst ∧
    (Bank.deposit b id paise).2.next_id_ = b.next_id_ := by
  have hnp : ¬ paise ≤ 0 := not_le.mpr hpos
  have hw : Bank.deposit b id paise = (.ok (), Bank.persist { b with
      accounts_ := Bank.assign b.accounts_ id
        { a with balance_paise_ := a.balance_paise_ + paise } }) := by
    simp [Bank.deposit, hfind, Account.deposit, hnp, wrap64_id _ hsum]
  rw [hw]
  exact ⟨rfl, find_assign_self _ _ _ _ hfind, fun k hk => find_assign_other _ _ _ _ hk,
    assign_keys _ _ _, rfl⟩

theorem deposit_unknown_id (b : Bank) (id : Int) (paise : Int)
    (hfind : Bank.find b.accounts_ id = none) :
    Bank.deposit b id paise = (.error .AccountNotFound, b) := by
  simp [Bank.deposit, hfind]

theorem snapshot_strict (b : Bank) (h : b.wf) :
    List.Pairwise (fun x y : Account => x.id_ < y.id_) b.snapshot := by
  have hs : List.Sorted (· ≤ ·) (b.snapshot.map (fun a => a.id_)) := by
    unfold List.Sorted
    rw [List.pairwise_map]
    exact snapshot_sorted b
  have hlt := hs.lt_of_le (snapshot_ids_nodup b h)
  unfold List.Sorted at hlt
  rw [List.pairwise_map] at hlt
  exact hlt

/-! ### Balance inquiry -/

theorem find_append_some (m : List (Int × Account)) (e : Int × Account) (id : Int)
    (a : Account) (h : Bank.find m id = some a) : Bank.find (m ++ [e]) id = some a := by
  induction m with
  | nil => simp [Bank.find] at h
  | cons x rest ih =>
    obtain ⟨k, v⟩ := x
    by_cases hk : k = id
    · simp only [Bank.find, if_pos hk] at h
      simp only [List.cons_append, Bank.find, if_pos hk, h]
    · simp only [Bank.find, if_neg hk] at h
      simp only [List.cons_append, Bank.find, if_neg hk]
      exact ih h

theorem find_emplace_some (m : List (Int × Account)) (k id : Int) (x a : Account)
    (h : Bank.find m id = some a) : Bank.find (Bank.emplace m k x) id = some a := by
  unfold Bank.emplace
  split_ifs
  · exact h
  · exact find_append_some m _ id a h

theorem deposit_digest (a a1 : Account) (paise : Int) (h : a.deposit paise = .ok a1) :
    a1.pin_hash_ = a.pin_hash_ := by
  unfold Account.deposit at h
  split_ifs at h
  simp only [Except.ok.injEq] at h
  rw [← h]

theorem withdraw_digest (a a1 : Account) (paise : Int) (h : a.withdraw paise = .ok a1) :
    a1.pin_hash_ = a.pin_hash_ := by
  unfold Account.withdraw at h
  split_ifs at h
  simp only [Except.ok.injEq] at h
  rw [← h]

theorem find_assign_digest (m : List (Int × Account)) (k id : Int) (a a0 a1 : Account)
    (h : Bank.find m id = some a) (hk : Bank.find m k = some a0)
    (hd : a1.pin_hash_ = a0.pin_hash_) :
    ∃ a2, Bank.find (Bank.assign m k a1) id = some a2 ∧ a2.pin_hash_ = a.pin_hash_ := by
  by_cases hki : id = k
  · subst hki
    rw [h] at hk
    simp only [Option.some.injEq] at hk
    exact ⟨a1, find_assign_self _ _ _ _ h, by rw [hd, hk]⟩
  · exact ⟨a, by rw [find_assign_other _ _ _ _ hki]; exact h, rfl⟩

theorem step_digest (H : Str → Nat) (b : Bank) (op : Bank.Op) (id : Int) (a : Account)
    (h : Bank.find b.accounts_ id = some a) :
    ∃ a1, Bank.find (Bank.step H b op).accounts_ id = some a1 ∧ a1.pin_hash_ = a.pin_hash_ := by
  cases op with
  | open_account name pin initial_paise =>
    simp only [Bank.step, Bank.open_account]
    split_ifs
    · exact ⟨a, h, rfl⟩
    · exact ⟨a, h, rfl⟩
    · exact ⟨a, h, rfl⟩
    · exact ⟨a, find_emplace_some _ _ _ _ _ h, rfl⟩
  | deposit k paise =>
    simp only [Bank.step, Bank.deposit]
    cases hf : Bank.find b.accounts_ k with
    | none => exact ⟨a, h, rfl⟩
    | some a0 =>
      simp only
      cases hd : a0.deposit paise with
      | error e => exact ⟨a, h, rfl⟩
      | ok a1 => exact find_assign_digest _ k id a a0 a1 h hf (deposit_digest _ _ _ hd)
  | withdraw k pin paise =>
    simp only [Bank.step, Bank.withdraw]
    cases hf : Bank.find b.accounts_ k with
    | none => exact ⟨a, h, rfl⟩
    | some a0 =>
      simp only
      split_ifs
      · exact ⟨a, h, rfl⟩
      · cases hd : a0.withdraw paise with
        | error e => exact ⟨a, h, rfl⟩
        | ok a1 => exact find_assign_digest _ k id a a0 a1 h hf (withdraw_digest _ _ _ hd)
  | transfer fromId pin toId paise =>
    simp only [Bank.step, Bank.transfer]
    split_ifs with h1 h2
    · exact ⟨a, h, rfl⟩
    · exact ⟨a, h, rfl⟩
    · cases hf : Bank.find b.accounts_ fromId with
      | none => exact ⟨a, h, rfl⟩
      | some fa =>
        cases ht : Bank.find b.accounts_ toId with
        | none => exact ⟨a, h, rfl⟩
        | some ta =>
          simp only
          split_ifs
          · exact ⟨a, h, rfl⟩
          · cases hw : fa.withdraw paise with
            | error e => exact ⟨a, h, rfl⟩
            | ok fa1 =>
              obtain ⟨a2, ha2, hd2⟩ :=
                find_assign_digest _ fromId id a fa fa1 h hf (withdraw_digest _ _ _ hw)
              have ht2 : Bank.find (Bank.assign b.accounts_ fromId fa1) toId = some ta := by
                rw [find_assign_other _ _ _ _ (fun e => h1 e.symm)]
                exact ht
              cases hd : ta.deposit paise with
              | error e => exact ⟨a2, ha2, hd2⟩
              | ok ta1 =>
                obtain ⟨a3, ha3, hd3⟩ :=
                  find_assign_digest _ toId id a2 ta ta1 ha2 ht2 (deposit_digest _ _ _ hd)
                exact ⟨a3, ha3, hd3.trans hd2⟩

theorem run_digest (H : Str → Nat) (ops : List Bank.Op) (b : Bank) (id : Int) (a : Account)
    (h : Bank.find b.accounts_ id = some a) :
    ∃ a1, Bank.find (Bank.run H b ops).accounts_ id = some a1 ∧ a1.pin_hash_ = a.pin_hash_ := by
  induction ops generalizing b a with
  | nil => exact ⟨a, h, rfl⟩
  | cons op rest ih =>
    obtain ⟨a1, h1, hd1⟩ := step_digest H b op id a h
    obtain ⟨a2, h2, hd2⟩ := ih (Bank.step H b op) a1 h1
    exact ⟨a2, h2, hd2.trans hd1⟩

theorem balance_with_open_pin (H : Str → Nat) (b b1 : Bank) (name p : Str) (init id : Int)
    (ops : List Bank.Op)
    (hopen : Bank.open_account H b name p init = (.ok id, b1))
    (hfresh : Bank.find b.accounts_ b.next_id_ = none) :
    ∃ a, Bank.find (Bank.run H b1 ops).accounts_ id = some a ∧
      Bank.get_balance H (Bank.run H b1 ops) id p = .ok a.balance_paise_ := by
  unfold Bank.open_account at hopen
  split_ifs at hopen with h1 h2 h3
  · simp at hopen
  · simp at hopen
  · simp at hopen
  simp only [Prod.mk.injEq, Except.ok.injEq] at hopen
  obtain ⟨hid, hb1⟩ := hopen
  subst hid
  have hf : Bank.find b1.accounts_ b.next_id_
      = some ⟨b.next_id_, name, init, Bank.hash_pin H b.salt_ p⟩ := by
    rw [← hb1]
    exact find_emplace_fresh _ _ _ hfresh
  have hs : b1.salt_ = b.salt_ := by rw [← hb1]; rfl
  obtain ⟨a, ha, hd⟩ := run_digest H ops b1 b.next_id_ _ hf
  refine ⟨a, ha, ?_⟩
  have hsalt : (Bank.run H b1 ops).salt_ = b.salt_ := (run_key H ops b1).2.trans hs
  simp only [Bank.get_balance, ha, Account.verify_pin, hsalt, hd, Bank.hash_pin]
  simp

theorem get_balance_of_find (H : Str → Nat) (b : Bank) (id : Int) (p : Str) (a : Account)
    (hf : Bank.find b.accounts_ id = some a)
    (hd : a.pin_hash_ = Bank.hash_pin H b.salt_ p) :
    Bank.get_balance H b id p = .ok a.balance_paise_ := by
  simp [Bank.get_balance, hf, Account.verify_pin, hd, Bank.hash_pin]

theorem verify_of_digest (H : Str → Nat) (a : Account) (p salt : Str)
    (hd : a.pin_hash_ = Bank.hash_pin H salt p) : a.verify_pin H p salt = true := by
  simp [Account.verify_pin, hd, Bank.hash_pin]

theorem aliceOpened_find (H : Str → Nat) (key salt : Str) :
    (Bank.open_account H (Bank.empty key salt) (ascii "Alice") (ascii "1234") 100000).1
      = .ok 1001 ∧
    Bank.find (aliceOpened H key salt).accounts_ 1001
      = some ⟨1001, ascii "Alice", 100000, Bank.hash_pin H salt (ascii "1234")⟩ ∧
    (aliceOpened H key salt).salt_ = salt := by
  have hA : ascii "Alice" ≠ [] := by decide
  have hP : ¬ (ascii "1234").length < 4 := by decide
  simp [aliceOpened, Bank.open_account, Bank.empty, hA, hP, Bank.emplace, Bank.find,
    Bank.persist]

theorem withdraw_exact_in_range (H : Str → Nat) (b : Bank) (id : Int) (pin : Str)
    (paise : Int) (a : Account) (hfind : Bank.find b.accounts_ id = some a)
    (hpin : a.verify_pin H pin b.salt_ = true) (hpos : 0 < paise)
    (hbal : inLL a.balance_paise_) (hle : paise ≤ a.balance_paise_) :
    (Bank.withdraw H b id pin paise).1 = .ok () ∧
    Bank.find (Bank.withdraw H b id pin paise).2.accounts_ id
      = some { a with balance_paise_ := a.balance_paise_ - paise } ∧
    (Bank.withdraw H b id pin paise).2.salt_ = b.salt_ := by
  have hnp : ¬ paise ≤ 0 := not_le.mpr hpos
  have hlt : ¬ a.balance_paise_ < paise := not_lt.mpr hle
  have hin : inLL (a.balance_paise_ - paise) := by
    unfold inLL at *
    omega
  have hw : Bank.withdraw H b id pin paise = (.ok (), Bank.persist { b with
      accounts_ := Bank.assign b.accounts_ id
        { a with balance_paise_ := a.balance_paise_ - paise } }) := by
    simp [Bank.withdraw, hfind, hpin, Account.withdraw, hnp, hlt, wrap64_id _ hin]
  rw [hw]
  exact ⟨rfl, find_assign_self _ _ _ _ hfind, rfl⟩

theorem withdraw_insufficient (H : Str → Nat) (b : Bank) (id : Int) (pin : Str)
    (paise : Int) (a : Account) (hfind : Bank.find b.accounts_ id = some a)
    (hpin : a.verify_pin H pin b.salt_ = true) (hpos : 0 < paise)
    (hlt : a.balance_paise_ < paise) :
    Bank.withdraw H b id pin paise = (.error .InsufficientFunds, b) := by
  have hnp : ¬ paise ≤ 0 := not_le.mpr hpos
  simp [Bank.withdraw, hfind, hpin, Account.withdraw, hnp, hlt]

theorem deposit_salt (b : Bank) (id : Int) (paise : Int) :
    (Bank.deposit b id paise).2.salt_ = b.salt_ :=
  (step_key (fun _ => 0) b (.deposit id paise)).2

/-! ### Key derivation -/

theorem rotate_getD (bs : List Nat) (j i : Nat) (h : i < bs.length) :
    (SimpleCipher.rotate j bs).getD i 0
      = ((bs.getD i 0 <<< ((j + i) % 5)) ^^^ ((31 + (j + i)) % 256)) % 256 := by
  induction bs generalizing j i with
  | nil => simp at h
  | cons b bs ih =>
    cases i with
    | zero => simp [SimpleCipher.rotate]
    | succ i =>
      simp only [SimpleCipher.rotate, List.getD_cons_succ]
      rw [ih (j + 1) i (by simpa using h)]
      have : j + 1 + i = j + (i + 1) := by omega
      rw [this]

theorem isRepeat_double (key0 l : List Nat) (h : isRepeat key0 l) : isRepeat key0 (l ++ l) := by
  obtain ⟨hd, hi⟩ := h
  refine ⟨by rw [List.length_append]; exact dvd_add hd hd, ?_⟩
  intro i hlt
  by_cases hil : i < l.length
  · rw [List.getD_append _ _ _ _ hil]
    exact hi i hil
  · have hge : l.length ≤ i := not_lt.mp hil
    rw [List.getD_append_right _ _ _ _ hge, hi (i - l.length) (by
      rw [List.length_append] at hlt; omega)]
    obtain ⟨c, hc⟩ := hd
    have : i % key0.length = (i - l.length) % key0.length := by
      have hi' : i = (i - l.length) + key0.length * c := by omega
      conv_lhs => rw [hi']
      exact Nat.add_mul_mod_self_left _ _ _
    rw [this]

theorem expand_isRepeat (fuel : Nat) (key0 l : List Nat) (h : isRepeat key0 l) :
    isRepeat key0 (SimpleCipher.expand fuel l) := by
  induction fuel generalizing l with
  | zero => exact h
  | succ fuel ih =>
    unfold SimpleCipher.expand
    split_ifs
    · exact ih _ (isRepeat_double key0 l h)
    · exact h

theorem isRepeat_self (key0 : List Nat) : isRepeat key0 key0 := by
  refine ⟨dvd_refl _, ?_⟩
  intro i hi
  rw [Nat.mod_eq_of_lt hi]

theorem derive_getD_aux (key0 : List Nat) (hne : key0 ≠ []) (i : Nat) (hi : i < 64) :
    (SimpleCipher.rotate 0 ((SimpleCipher.expand 6 key0).take 64
        ++ List.replicate (64 - (SimpleCipher.expand 6 key0).length) 0)).getD i 0
      = ((key0.getD (i % key0.length) 0 <<< (i % 5)) ^^^ ((31 + i) % 256)) % 256 := by
  have he := expand_length key0 hne
  have hrep := expand_isRepeat 6 key0 key0 (isRepeat_self key0)
  have h0 : 64 - (SimpleCipher.expand 6 key0).length = 0 := by omega
  have hlen : ((SimpleCipher.expand 6 key0).take 64).length = 64 := by
    rw [List.length_take]
    omega
  rw [h0, List.replicate_zero, List.append_nil, rotate_getD _ 0 i (by rw [hlen]; exact hi),
    Nat.zero_add]
  have htake : ((SimpleCipher.expand 6 key0).take 64).getD i 0
      = (SimpleCipher.expand 6 key0).getD i 0 := by
    rw [List.getD_eq_getElem?_getD, List.getD_eq_getElem?_getD, List.getElem?_take_of_lt hi]
  rw [htake, hrep.2 i (by omega)]

theorem derive_getD (k : Str) (i : Nat) (hi : i < 64) :
    (SimpleCipher.derive k).getD i 0
      = (((if k = [] then [0x42] else k).getD (i % (if k = [] then [0x42] else k).length) 0
          <<< (i % 5)) ^^^ ((31 + i) % 256)) % 256 := by
  have hne : (if k = [] then [0x42] else k) ≠ [] := by
    split_ifs with h
    · simp
    · exact h
  exact derive_getD_aux _ hne i hi

/-! ### Malformed records and damaged files -/

theorem stoi_no_digits (s : Str) (h : scanInt s = none) : stoi s = .error .InvalidArgument := by
  simp [stoi, h]

theorem stoll_no_digits (s : Str) (h : scanInt s = none) : stoll s = .error .InvalidArgument := by
  simp [stoll, h]

theorem stoull_no_digits (s : Str) (h : scanInt s = none) :
    stoull s = .error .InvalidArgument := by
  simp [stoull, h]

theorem stoi_error_kind (s : Str) (e : Err) (h : stoi s = .error e) :
    e = .InvalidArgument ∨ e = .OutOfRange := by
  unfold stoi at h
  split at h
  · simp only [Except.error.injEq] at h
    exact Or.inl h.symm
  · rename_i neg m _
    dsimp only at h
    generalize (if neg = true then -(m : Int) else (m : Int)) = w at h
    split_ifs at h
    simp only [Except.error.injEq] at h
    exact Or.inr h.symm

theorem stoll_error_kind (s : Str) (e : Err) (h : stoll s = .error e) :
    e = .InvalidArgument ∨ e = .OutOfRange := by
  unfold stoll at h
  split at h
  · simp only [Except.error.injEq] at h
    exact Or.inl h.symm
  · rename_i neg m _
    dsimp only at h
    generalize (if neg = true then -(m : Int) else (m : Int)) = w at h
    split_ifs at h
    simp only [Except.error.injEq] at h
    exact Or.inr h.symm

theorem deserialize_of_fields (line p0 p1 p2 p3 : Str)
    (h : Account.fields line = [p0, p1, p2, p3]) :
    Account.deserialize line =
      match stoi p0 with
      | .error e => .error e
      | .ok id =>
        match stoll p2 with
        | .error e => .error e
        | .ok bal =>
          match stoull p3 with
          | .error e => .error e
          | .ok ph => .ok ⟨id, Account.unesc p1, bal, ph⟩ := by
  unfold Account.fields at h
  unfold Account.deserialize
  simp only [h]

theorem loadLoop_saveBytes_append (key : Str) (accs : List Account) (tail : Str)
    (out : List Account) (fuel : Nat)
    (h : ∀ a ∈ accs, a.typed ∧ a.serialize.length ≤ 2 ^ 24) :
    Persistence.loadLoop key (fuel + accs.length) (Persistence.saveBytes key accs ++ tail) out
      = Persistence.loadLoop key fuel tail
          (out ++ accs.map (fun a => { a with name_ := Account.unesc a.name_ })) := by
  induction accs generalizing out with
  | nil => simp [Persistence.saveBytes]
  | cons a rest ih =>
    obtain ⟨hty, hsz⟩ := h a (List.mem_cons_self _ _)
    have hrest : ∀ x ∈ rest, x.typed ∧ x.serialize.length ≤ 2 ^ 24 :=
      fun x hx => h x (List.mem_cons_of_mem _ hx)
    have hlen : (SimpleCipher.apply key a.serialize).length = a.serialize.length :=
      apply_length _ _
    have hlt : (SimpleCipher.apply key a.serialize).length < 2 ^ 32 := by
      rw [hlen]
      exact lt_of_le_of_lt hsz (by norm_num)
    have hmod : (SimpleCipher.apply key a.serialize).length % 2 ^ 32
        = (SimpleCipher.apply key a.serialize).length := Nat.mod_eq_of_lt hlt
    have hle : ¬ (SimpleCipher.apply key a.serialize).length > 2 ^ 24 := by
      rw [hlen]
      exact not_lt.mpr hsz
    have hinv : SimpleCipher.apply key (SimpleCipher.apply key a.serialize) = a.serialize :=
      apply_apply _ _ (serialize_bytes a hty.2.1)
    have hfuel : fuel + (a :: rest).length = (fuel + rest.length) + 1 := by
      simp only [List.length_cons]
      omega
    rw [hfuel, Persistence.saveBytes, hmod, List.append_assoc,
      loadLoop_step key _ _ _ _ out hlt rfl, if_neg hle, hinv,
      if_neg (serialize_ne_nil a), deserialize_serialize a hty]
    simp only
    rw [ih (out ++ [_]) hrest]
    simp

theorem loadLoop_short_read (key : Str) (fuel : Nat) (bytes : Str) (out : List Account)
    (h : bytes.length < 4) :
    Persistence.loadLoop key (fuel + 1) bytes out = some (.ok out) := by
  rw [Persistence.loadLoop, if_pos h]

theorem loadLoop_oversize_length (key : Str) (fuel : Nat) (bytes : Str) (out : List Account)
    (h4 : 4 ≤ bytes.length) (hn : 2 ^ 24 < readLe32 (bytes.take 4)) :
    Persistence.loadLoop key (fuel + 1) bytes out = some (.error .PersistenceError) := by
  rw [Persistence.loadLoop, if_neg (not_lt.mpr h4), if_pos hn]

theorem loadLoop_truncated_body (key : Str) (fuel : Nat) (bytes : Str) (out : List Account)
    (h4 : 4 ≤ bytes.length) (hn : readLe32 (bytes.take 4) ≤ 2 ^ 24)
    (hshort : (bytes.drop 4).length < readLe32 (bytes.take 4)) :
    Persistence.loadLoop key (fuel + 1) bytes out = some (.error .PersistenceError) := by
  rw [Persistence.loadLoop, if_neg (not_lt.mpr h4), if_neg (not_lt.mpr hn), if_pos hshort]

theorem loadBytes_append (key : Str) (accs : List Account) (tail : Str)
    (h : ∀ a ∈ accs, a.typed ∧ a.serialize.length ≤ 2 ^ 24) :
    Persistence.loadBytes key (Persistence.saveBytes key accs ++ tail)
      = match Persistence.loadLoop key
          (((Persistence.saveBytes key accs).length - accs.length) + tail.length + 1) tail
          (accs.map (fun a => { a with name_ := Account.unesc a.name_ })) with
        | some r => r
        | none => .error .PersistenceError := by
  unfold Persistence.loadBytes
  have hl := saveBytes_length key accs
  have hf : (Persistence.saveBytes key accs ++ tail).length + 1
      = (((Persistence.saveBytes key accs).length - accs.length) + tail.length + 1)
        + accs.length := by
    rw [List.length_append]
    omega
  rw [hf, loadLoop_saveBytes_append key accs tail [] _ h]
  simp only [List.nil_append]

theorem load_rejects_damaged_tail (key : Str) (accs : List Account) (tail : Str)
    (h : ∀ a ∈ accs, a.typed ∧ a.serialize.length ≤ 2 ^ 24) (h4 : 4 ≤ tail.length)
    (hbad : 2 ^ 24 < readLe32 (tail.take 4) ∨ (tail.drop 4).length < readLe32 (tail.take 4)) :
    Persistence.loadBytes key (Persistence.saveBytes key accs ++ tail)
      = .error .PersistenceError := by
  rw [loadBytes_append key accs tail h]
  by_cases hn : 2 ^ 24 < readLe32 (tail.take 4)
  · rw [loadLoop_oversize_length key _ tail _ h4 hn]
  · rcases hbad with hb | hb
    · exact absurd hb hn
    · rw [loadLoop_truncated_body key _ tail _ h4 (not_lt.mp hn) hb]

theorem load_accepts_short_read (key : Str) (accs : List Account) (tail : Str)
    (h : ∀ a ∈ accs, a.typed ∧ a.serialize.length ≤ 2 ^ 24) (h4 : tail.length < 4) :
    Persistence.loadBytes key (Persistence.saveBytes key accs ++ tail)
      = .ok (accs.map (fun a => { a with name_ := Account.unesc a.name_ })) := by
  rw [loadBytes_append key accs tail h, loadLoop_short_read key _ tail _ h4]

/-! ### The id counter -/

theorem wrap32_id (x : Int) (h : inInt x) : wrap32 x = x := by
  unfold inInt at h
  unfold wrap32
  omega

theorem emplace_keys (m : List (Int × Account)) (id : Int) (a : Account) :
    ∀ k ∈ (Bank.emplace m id a).map Prod.fst, k ∈ m.map Prod.fst ∨ k = id := by
  intro k hk
  unfold Bank.emplace at hk
  split_ifs at hk
  · exact Or.inl hk
  · simp only [List.map_append, List.map_cons, List.map_nil, List.mem_append,
      List.mem_singleton] at hk
    exact hk

theorem initLoop_idsBelow (l : List Account) (m : List (Int × Account)) (nid : Int)
    (store : Persistence) (salt : Str)
    (hl : ∀ a ∈ l, -2 ^ 31 ≤ a.id_ ∧ a.id_ < 2 ^ 31 - 1)
    (h : Bank.idsBelow ⟨m, store, salt, nid⟩) :
    Bank.idsBelow ⟨(Bank.initLoop l m nid).1, store, salt, (Bank.initLoop l m nid).2⟩ := by
  induction l generalizing m nid with
  | nil => exact h
  | cons a rest ih =>
    rw [Bank.initLoop]
    apply ih _ _ (fun x hx => hl x (List.mem_cons_of_mem _ hx))
    obtain ⟨ha1, ha2⟩ := hl a (List.mem_cons_self _ _)
    have hw : wrap32 (a.id_ + 1) = a.id_ + 1 := wrap32_id _ (by unfold inInt; omega)
    rw [hw]
    refine ⟨le_trans h.1 (le_max_left _ _), ?_⟩
    intro k hk
    rcases emplace_keys m a.id_ a k hk with hk | hk
    · exact lt_of_lt_of_le (h.2 k hk) (le_max_left _ _)
    · rw [hk]
      exact lt_of_lt_of_le (by omega) (le_max_right _ _)

theorem step_idsBelow (H : Str → Nat) (b : Bank) (op : Bank.Op) (h : b.idsBelow)
    (hmax : b.next_id_ < 2 ^ 31 - 1) :
    (Bank.step H b op).idsBelow ∧ b.next_id_ ≤ (Bank.step H b op).next_id_ ∧
      (Bank.step H b op).next_id_ ≤ b.next_id_ + 1 := by
  have hself : b.idsBelow ∧ b.next_id_ ≤ b.next_id_ ∧ b.next_id_ ≤ b.next_id_ + 1 :=
    ⟨h, le_refl _, by omega⟩
  have hassign : ∀ id a1, Bank.idsBelow (Bank.persist { b with
      accounts_ := Bank.assign b.accounts_ id a1 }) := by
    intro id a1
    refine ⟨h.1, ?_⟩
    intro k hk
    have hk' : k ∈ (Bank.assign b.accounts_ id a1).map Prod.fst := hk
    rw [assign_keys] at hk'
    exact h.2 k hk'
  cases op with
  | open_account name pin initial_paise =>
    simp only [Bank.step, Bank.open_account]
    split_ifs
    · exact hself
    · exact hself
    · exact hself
    · have hw : wrap32 (b.next_id_ + 1) = b.next_id_ + 1 :=
        wrap32_id _ (by unfold inInt; have := h.1; omega)
      refine ⟨⟨?_, ?_⟩, ?_, ?_⟩
      · show 1001 ≤ wrap32 (b.next_id_ + 1)
        rw [hw]
        have := h.1
        omega
      · intro k hk
        show k < wrap32 (b.next_id_ + 1)
        rw [hw]
        rcases emplace_keys b.accounts_ b.next_id_ _ k hk with hk | hk
        · have := h.2 k hk
          omega
        · omega
      · show b.next_id_ ≤ wrap32 (b.next_id_ + 1)
        rw [hw]
        omega
      · show wrap32 (b.next_id_ + 1) ≤ b.next_id_ + 1
        rw [hw]
  | deposit id paise =>
    simp only [Bank.step, Bank.deposit]
    split
    · exact hself
    · split
      · exact hself
      · exact ⟨hassign _ _, le_refl _, by show b.next_id_ ≤ b.next_id_ + 1; omega⟩
  | withdraw id pin paise =>
    simp only [Bank.step, Bank.withdraw]
    split
    · exact hself
    · split_ifs
      · exact hself
      · split
        · exact hself
        · exact ⟨hassign _ _, le_refl _, by show b.next_id_ ≤ b.next_id_ + 1; omega⟩
  | transfer fromId pin toId paise =>
    simp only [Bank.step, Bank.transfer]
    split_ifs
    · exact hself
    · exact hself
    · split
      · exact hself
      · split
        · exact hself
        · split_ifs
          · exact hself
          · split
            · exact hself
            · have hkeys : ∀ (a1 a2 : Account) (k : Int),
                  k ∈ (Bank.assign (Bank.assign b.accounts_ fromId a1) toId a2).map Prod.fst →
                  k < b.next_id_ := by
                intro a1 a2 k hk
                rw [assign_keys, assign_keys] at hk
                exact h.2 k hk
              have hkeys1 : ∀ (a1 : Account) (k : Int),
                  k ∈ (Bank.assign b.accounts_ fromId a1).map Prod.fst → k < b.next_id_ := by
                intro a1 k hk
                rw [assign_keys] at hk
                exact h.2 k hk
              split
              · exact ⟨⟨h.1, hkeys1 _⟩, le_refl _, by show b.next_id_ ≤ b.next_id_ + 1; omega⟩
              · exact ⟨⟨h.1, hkeys _ _⟩, le_refl _, by show b.next_id_ ≤ b.next_id_ + 1; omega⟩

theorem run_idsBelow (H : Str → Nat) (ops : List Bank.Op) (b : Bank) (h : b.idsBelow)
    (hmax : b.next_id_ + ops.length ≤ 2 ^ 31 - 1) :
    (Bank.run H b ops).idsBelow ∧ b.next_id_ ≤ (Bank.run H b ops).next_id_ ∧
      (Bank.run H b ops).next_id_ ≤ b.next_id_ + ops.length := by
  induction ops generalizing b with
  | nil => exact ⟨h, le_refl _, by simp [Bank.run]⟩
  | cons op rest ih =>
    simp only [List.length_cons, Nat.cast_add, Nat.cast_one] at hmax
    obtain ⟨h1, h2, h3⟩ := step_idsBelow H b op h (by omega)
    obtain ⟨h4, h5, h6⟩ := ih (Bank.step H b op) h1 (by omega)
    simp only [Bank.run, List.foldl_cons, List.length_cons, Nat.cast_add, Nat.cast_one]
    simp only [Bank.run] at h4 h5 h6
    exact ⟨h4, by omega, by omega⟩

theorem open_fresh_of_idsBelow (b : Bank) (h : b.idsBelow) :
    Bank.find b.accounts_ b.next_id_ = none := by
  apply find_none_of_not_mem
  intro hm
  exact lt_irrefl _ (h.2 _ hm)

theorem create_idsBelow (store : Persistence) (salt : Str) (b : Bank) (loaded : List Account)
    (hload : store.load = .ok loaded) (hcreate : Bank.create store salt = .ok b)
    (hl : ∀ a ∈ loaded, a.id_ < 2 ^ 31 - 1) : b.idsBelow := by
  unfold Bank.create at hcreate
  rw [hload] at hcreate
  simp only [Except.ok.injEq] at hcreate
  rw [← hcreate]
  apply initLoop_idsBelow loaded [] 1001 store salt
  · intro a ha
    exact ⟨(load_typed store loaded hload a ha).1.1, hl a ha⟩
  · exact ⟨le_refl _, by intro k hk; simp at hk⟩

/-! ### Money text -/

theorem tdiv_tmod_facts (p : Int) :
    p = 100 * Int.tdiv p 100 + Int.tmod p 100 ∧
    (0 ≤ p → 0 ≤ Int.tmod p 100 ∧ Int.tmod p 100 < 100 ∧ 0 ≤ Int.tdiv p 100) ∧
    (p < 0 → -100 < Int.tmod p 100 ∧ Int.tmod p 100 ≤ 0 ∧ Int.tdiv p 100 ≤ 0) := by
  have hsum := Int.tdiv_add_tmod p 100
  refine ⟨by omega, ?_, ?_⟩
  · intro hp
    have h1 : Int.tdiv p 100 = p / 100 := Int.tdiv_eq_ediv hp (by norm_num)
    have h2 : Int.tmod p 100 = p % 100 := Int.tmod_eq_emod hp (by norm_num)
    rw [h1, h2]
    omega
  · intro hp
    have h1 : (-p).tdiv 100 = (-p) / 100 := Int.tdiv_eq_ediv (by omega) (by norm_num)
    have h2 : (-p).tdiv 100 = -(p.tdiv 100) := Int.neg_tdiv p 100
    omega

theorem dropWhile_none (q : Nat → Bool) (s : Str) (h : ∀ c ∈ s, q c = false) :
    s.dropWhile q = s := by
  cases s with
  | nil => rfl
  | cons c cs => simp [List.dropWhile, h c (List.mem_cons_self _ _)]

theorem trim_plain (s : Str) (h : ∀ c ∈ s, isTrimSpace c = false) : trim s = s := by
  unfold trim
  rw [dropWhile_none _ s h, dropWhile_none _ s.reverse (fun c hc => h c (List.mem_reverse.mp hc)),
    List.reverse_reverse]

theorem takeWhile_dot (a b : Str) (h : 46 ∉ a) :
    (a ++ 46 :: b).takeWhile (fun c => c != 46) = a := by
  induction a with
  | nil => simp [List.takeWhile]
  | cons c cs ih =>
    have hc : (c != 46) = true := by
      simpa using fun e : c = 46 => h (e ▸ List.mem_cons_self _ _)
    have hcs : 46 ∉ cs := fun e => h (List.mem_cons_of_mem _ e)
    rw [List.cons_append, List.takeWhile_cons, if_pos hc, ih hcs]

theorem dropWhile_dot (a b : Str) (h : 46 ∉ a) :
    (a ++ 46 :: b).dropWhile (fun c => c != 46) = 46 :: b := by
  induction a with
  | nil => simp [List.dropWhile]
  | cons c cs ih =>
    have hc : (c != 46) = true := by
      simpa using fun e : c = 46 => h (e ▸ List.mem_cons_self _ _)
    have hcs : 46 ∉ cs := fun e => h (List.mem_cons_of_mem _ e)
    rw [List.cons_append, List.dropWhile_cons, if_pos hc, ih hcs]

theorem pad2_natToDec : ∀ f < 100, pad2 (natToDec f) = [48 + f / 10, 48 + f % 10] := by
  decide

theorem stoll_two_digits (f : Nat) (hf : f < 100) :
    stoll [48 + f / 10, 48 + f % 10] = .ok (f : Int) := by
  have h1 : f / 10 < 10 := by omega
  have h2 : f % 10 < 10 := by omega
  have hd : ∀ c ∈ [48 + f / 10, 48 + f % 10], isDigit c = true := by
    intro c hc
    simp only [List.mem_cons, List.mem_singleton, List.not_mem_nil, or_false] at hc
    rcases hc with rfl | rfl <;> simp [isDigit] <;> omega
  have hv : digitsVal [48 + f / 10, 48 + f % 10] = f := by
    simp only [digitsVal, List.foldl_cons, List.foldl_nil]
    omega
  unfold stoll
  rw [scanInt_digits _ (by simp) hd, hv]
  dsimp only
  have hr : -2 ^ 63 ≤ (f : Int) ∧ (f : Int) ≤ 2 ^ 63 - 1 := by
    constructor <;> norm_num <;> omega
  simp only [Bool.false_eq_true, if_false]
  rw [if_pos hr]

theorem intToDec_chars (x : Int) : ∀ c ∈ intToDec x, c = 45 ∨ (48 ≤ c ∧ c ≤ 57) := by
  intro c hc
  have hdig : ∀ n : Nat, ∀ d ∈ natToDec n, 48 ≤ d ∧ d ≤ 57 := by
    intro n d hd
    simpa [isDigit] using natToDec_digits n d hd
  unfold intToDec at hc
  split_ifs at hc
  · rcases List.mem_cons.mp hc with rfl | hc
    · exact Or.inl rfl
    · exact Or.inr (hdig _ c hc)
  · exact Or.inr (hdig _ c hc)

theorem intToDec_ne_nil (x : Int) : intToDec x ≠ [] := by
  unfold intToDec
  split_ifs
  · simp
  · exact natToDec_ne_nil _

theorem parse_money_text (q : Int) (f : Nat) (hq : inLL q) (hf : f < 100) :
    parse_money (intToDec q ++ 46 :: [48 + f / 10, 48 + f % 10])
      = .ok (wrap64 (wrap64 (q * 100) + (if q ≥ 0 then (f : Int) else wrap64 (-(f : Int))))) := by
  have hplain : ∀ c ∈ intToDec q ++ 46 :: [48 + f / 10, 48 + f % 10],
      isTrimSpace c = false := by
    intro c hc
    simp only [List.mem_append, List.mem_cons, List.mem_singleton, List.not_mem_nil,
      or_false] at hc
    rcases hc with hc | rfl | rfl | rfl
    · rcases intToDec_chars q c hc with rfl | ⟨h1, h2⟩
      · decide
      · simp [isTrimSpace]
        omega
    · decide
    · simp [isTrimSpace]
      omega
    · simp [isTrimSpace]
      omega
  have hno : 46 ∉ intToDec q := by
    intro hm
    rcases intToDec_chars q 46 hm with h | ⟨h1, _⟩
    · exact absurd h (by decide)
    · omega
  have hne : intToDec q ++ 46 :: [48 + f / 10, 48 + f % 10] ≠ [] := by simp
  have hdot : ¬ (46 ∉ intToDec q ++ 46 :: [48 + f / 10, 48 + f % 10]) := by simp
  unfold parse_money
  rw [trim_plain _ hplain, if_neg hne, if_neg hdot, takeWhile_dot _ _ hno,
    dropWhile_dot _ _ hno]
  simp only [List.tail_cons, List.length_cons, List.length_nil]
  rw [if_neg (by omega), if_neg (intToDec_ne_nil q), stoll_intToDec q hq]
  simp only [List.replicate_zero, List.append_nil, Nat.sub_self, Nat.reduceAdd]
  rw [stoll_two_digits f hf]

theorem to_money_text (p : Int) (hf : (Int.tmod p 100).natAbs < 100) :
    to_money p = intToDec (Int.tdiv p 100)
      ++ 46 :: [48 + (Int.tmod p 100).natAbs / 10, 48 + (Int.tmod p 100).natAbs % 10] := by
  unfold to_money
  rw [pad2_natToDec _ hf]
  simp

theorem money_roundtrip_outside_gap (p : Int) (hp : inLL p) (h : 0 ≤ p ∨ p ≤ -100) :
    parse_money (to_money p) = .ok p := by
  obtain ⟨hsum, hpos, hneg⟩ := tdiv_tmod_facts p
  unfold inLL at hp
  have hf : (Int.tmod p 100).natAbs < 100 := by
    by_cases h0 : 0 ≤ p
    · have := hpos h0
      omega
    · have := hneg (by omega)
      omega
  have hq : inLL (Int.tdiv p 100) := by
    unfold inLL
    by_cases h0 : 0 ≤ p
    · have := hpos h0
      omega
    · have := hneg (by omega)
      omega
  rw [to_money_text p hf, parse_money_text _ _ hq hf]
  congr 1
  by_cases h0 : 0 ≤ p
  · obtain ⟨h1, h2, h3⟩ := hpos h0
    rw [if_pos h3]
    have e1 : wrap64 (Int.tdiv p 100 * 100) = Int.tdiv p 100 * 100 :=
      wrap64_id _ (by unfold inLL; omega)
    rw [e1]
    have e2 : ((Int.tmod p 100).natAbs : Int) = Int.tmod p 100 := by omega
    rw [e2]
    exact wrap64_id _ (by unfold inLL; omega) |>.trans (by omega)
  · obtain ⟨h1, h2, h3⟩ := hneg (by omega)
    have hlt : ¬ (Int.tdiv p 100 ≥ 0) := by omega
    rw [if_neg hlt]
    have e1 : wrap64 (Int.tdiv p 100 * 100) = Int.tdiv p 100 * 100 :=
      wrap64_id _ (by unfold inLL; omega)
    have e2 : wrap64 (-((Int.tmod p 100).natAbs : Int)) = Int.tmod p 100 := by
      rw [wrap64_id _ (by unfold inLL; omega)]
      omega
    rw [e1, e2]
    exact wrap64_id _ (by unfold inLL; omega) |>.trans (by omega)

theorem withdraw_unknown_id (H : Str → Nat) (b : Bank) (id : Int) (pin : Str) (paise : Int)
    (hfind : Bank.find b.accounts_ id = none) :
    Bank.withdraw H b id pin paise = (.error .AccountNotFound, b) := by
  simp [Bank.withdraw, hfind]

theorem withdraw_wrong_pin (H : Str → Nat) (b : Bank) (id : Int) (pin : Str) (paise : Int)
    (a : Account) (hfind : Bank.find b.accounts_ id = some a)
    (hpin : a.verify_pin H pin b.salt_ = false) :
    Bank.withdraw H b id pin paise = (.error .AuthenticationError, b) := by
  simp [Bank.withdraw, hfind, hpin]

/-- The scenario of the specification, for every hash function, key and salt: on
the empty ledger `open_account("Alice", "1234", 100000)` returns 1001; then
`get_balance(1001, "1234")` is 100000; `deposit(1001, 5000)` returns and the
balance is 105000; `withdraw(1001, "1234", 105000)` returns and the balance is
0; `withdraw(1001, "1234", 1)` throws `InsufficientFunds` and leaves the ledger
unchanged. -/
theorem scenario_alice (H : Str → Nat) (key salt : Str) :
    (Bank.open_account H (Bank.empty key salt) (ascii "Alice") (ascii "1234") 100000).1
      = .ok 1001 ∧
    Bank.get_balance H (aliceOpened H key salt) 1001 (ascii "1234") = .ok 100000 ∧
    (Bank.deposit (aliceOpened H key salt) 1001 5000).1 = .ok () ∧
    Bank.get_balance H (aliceDeposited H key salt) 1001 (ascii "1234") = .ok 105000 ∧
    (Bank.withdraw H (aliceDeposited H key salt) 1001 (ascii "1234") 105000).1 = .ok () ∧
    Bank.get_balance H (aliceWithdrawn H key salt) 1001 (ascii "1234") = .ok 0 ∧
    Bank.withdraw H (aliceWithdrawn H key salt) 1001 (ascii "1234") 1
      = (.error .InsufficientFunds, aliceWithdrawn H key salt) := by
  obtain ⟨h0, hf1, hs1⟩ := aliceOpened_find H key salt
  have hdep := deposit_exact_in_range (aliceOpened H key salt) 1001 5000 _ hf1 (by norm_num)
    (by unfold inLL; norm_num)
  have hf2 : Bank.find (aliceDeposited H key salt).accounts_ 1001
      = some ⟨1001, ascii "Alice", 105000, Bank.hash_pin H salt (ascii "1234")⟩ := by
    have := hdep.2.1
    norm_num at this
    exact this
  have hs2 : (aliceDeposited H key salt).salt_ = salt := (deposit_salt _ _ _).trans hs1
  have hv2 : Account.verify_pin H ⟨1001, ascii "Alice", 105000,
      Bank.hash_pin H salt (ascii "1234")⟩ (ascii "1234") (aliceDeposited H key salt).salt_
      = true := verify_of_digest H _ _ _ (by rw [hs2])
  have hw := withdraw_exact_in_range H (aliceDeposited H key salt) 1001 (ascii "1234") 105000 _
    hf2 hv2 (by norm_num) (by unfold inLL; norm_num) (by norm_num)
  have hf3 : Bank.find (aliceWithdrawn H key salt).accounts_ 1001
      = some ⟨1001, ascii "Alice", 0, Bank.hash_pin H salt (ascii "1234")⟩ := by
    have := hw.2.1
    norm_num at this
    exact this
  have hs3 : (aliceWithdrawn H key salt).salt_ = salt := hw.2.2.trans hs2
  have hv3 : Account.verify_pin H ⟨1001, ascii "Alice", 0,
      Bank.hash_pin H salt (ascii "1234")⟩ (ascii "1234") (aliceWithdrawn H key salt).salt_
      = true := verify_of_digest H _ _ _ (by rw [hs3])
  refine ⟨h0, ?_, hdep.1, ?_, hw.1, ?_, ?_⟩
  · exact get_balance_of_find H _ 1001 _ _ hf1 (by rw [hs1])
  · exact get_balance_of_find H _ 1001 _ _ hf2 (by rw [hs2])
  · exact get_balance_of_find H _ 1001 _ _ hf3 (by rw [hs3])
  · exact withdraw_insufficient H _ 1001 _ 1 _ hf3 hv3 (by norm_num) (by norm_num)

theorem pinOfBytes_injective : Function.Injective pinOfBytes := by
  intro v w h
  unfold pinOfBytes at h
  have h2 := List.ofFn_injective h
  funext i
  exact Fin.ext (congrFun h2 i)

theorem pinOfBytes_length (v : Fin 9 → Fin 256) : (pinOfBytes v).length = 9 := by
  simp [pinOfBytes]

theorem pinOfBytes_bytes (v : Fin 9 → Fin 256) : isBytes (pinOfBytes v) := by
  intro c hc
  unfold pinOfBytes at hc
  rw [List.mem_ofFn] at hc
  obtain ⟨i, rfl⟩ := hc
  exact (v i).isLt

/-! ## The claims -/

/-- Claim C1 (record codec round trip), evaluated on the account with id 1001,
name `a\b` (three bytes), balance 0 and digest 0: `deserialize (serialize a)`
succeeds but returns the name `ab`. The splitting loop of `deserialize` already
removes the escaping backslashes, and `unesc` is then applied once more, so a
backslash of the name is lost and the account read back differs from `a`. -/
theorem codec_roundtrip_loses_backslash :
    Account.deserialize (Account.serialize ⟨1001, ascii "a\\b", 0, 0⟩)
      = .ok ⟨1001, ascii "ab", 0, 0⟩ ∧
    (⟨1001, ascii "ab", 0, 0⟩ : Account) ≠ ⟨1001, ascii "a\\b", 0, 0⟩ := by
  decide

/-- Claim C2 (balance invariant), evaluated on the ledger reached from the empty
ledger by `open_account("A", "1234", 9223372036854775807)` and `deposit(1001, 1)`:
both calls succeed, the addition in `Account::deposit` overflows `long long`, and
the balance of account 1001 is `-9223372036854775808`, which is negative. -/
theorem balance_negative_after_overflow :
    (Bank.find (Bank.run sampleHash (Bank.empty (ascii "k") (ascii "s"))
      [.open_account (ascii "A") (ascii "1234") 9223372036854775807,
       .deposit 1001 1]).accounts_ 1001).map (fun a => a.balance_paise_)
      = some (-9223372036854775808) := by
  decide

/-- Claim C3 (transfer conservation), evaluated on the ledger holding account
1001 with balance 1 and account 1002 with balance 9223372036854775807: the call
`transfer(1001, "1234", 1002, 1)` succeeds, the balance of 1001 becomes 0, and the
credit overflows `long long`, so the balance of 1002 becomes
`-9223372036854775808` instead of growing by 1; the sum of the two balances is
not preserved. -/
theorem transfer_credit_overflow :
    (Bank.find (Bank.run sampleHash (Bank.empty (ascii "k") (ascii "s"))
        [.open_account (ascii "A") (ascii "1234") 1,
         .open_account (ascii "B") (ascii "5678") 9223372036854775807]).accounts_ 1001).map
        (fun a => a.balance_paise_) = some 1 ∧
    (Bank.find (Bank.run sampleHash (Bank.empty (ascii "k") (ascii "s"))
        [.open_account (ascii "A") (ascii "1234") 1,
         .open_account (ascii "B") (ascii "5678") 9223372036854775807]).accounts_ 1002).map
        (fun a => a.balance_paise_) = some 9223372036854775807 ∧
    (Bank.transfer sampleHash (Bank.run sampleHash (Bank.empty (ascii "k") (ascii "s"))
        [.open_account (ascii "A") (ascii "1234") 1,
         .open_account (ascii "B") (ascii "5678") 9223372036854775807])
        1001 (ascii "1234") 1002 1).1 = .ok () ∧
    (Bank.find (Bank.transfer sampleHash
        (Bank.run sampleHash (Bank.empty (ascii "k") (ascii "s"))
          [.open_account (ascii "A") (ascii "1234") 1,
           .open_account (ascii "B") (ascii "5678") 9223372036854775807])
        1001 (ascii "1234") 1002 1).2.accounts_ 1001).map (fun a => a.balance_paise_)
      = some 0 ∧
    (Bank.find (Bank.transfer sampleHash
        (Bank.run sampleHash (Bank.empty (ascii "k") (ascii "s"))
          [.open_account (ascii "A") (ascii "1234") 1,
           .open_account (ascii "B") (ascii "5678") 9223372036854775807])
        1001 (ascii "1234") 1002 1).2.accounts_ 1002).map (fun a => a.balance_paise_)
      = some (-9223372036854775808) := by
  decide

/-- Claim C4 (transfer atomicity on failure): whenever `transfer` throws, whatever
the exception, the ledger after the call is the ledger before it (accounts,
`next_id_`, salt and backing file); and when the two ids differ, the amount is
positive, both accounts exist, the PIN of `from` verifies and the balance of
`from` is below the amount, the call throws `InsufficientFunds` and the ledger,
so the balances of both accounts, is unchanged. -/
theorem transfer_failure_atomic (H : Str → Nat) (b : Bank) (fromId : Int) (pin : Str)
    (toId : Int) (paise : Int) :
    (∀ e, (Bank.transfer H b fromId pin toId paise).1 = .error e →
      (Bank.transfer H b fromId pin toId paise).2 = b) ∧
    (∀ fa ta, fromId ≠ toId → 0 < paise → Bank.find b.accounts_ fromId = some fa →
      Bank.find b.accounts_ toId = some ta → fa.verify_pin H pin b.salt_ = true →
      fa.balance_paise_ < paise →
      Bank.transfer H b fromId pin toId paise = (.error .InsufficientFunds, b)) := by
  constructor
  · intro e he
    unfold Bank.transfer at he ⊢
    split_ifs at he ⊢ with h1 h2
    · rfl
    · rfl
    · cases hf : Bank.find b.accounts_ fromId with
      | none => simp [hf]
      | some fa =>
        cases ht : Bank.find b.accounts_ toId with
        | none => simp [ht]
        | some ta =>
          simp only [hf, ht] at he ⊢
          split_ifs at he ⊢ with h3
          · rfl
          · cases hw : fa.withdraw paise with
            | error e1 => simp [hw]
            | ok fa1 =>
              have hd : ta.deposit paise
                  = .ok { ta with balance_paise_ := wrap64 (ta.balance_paise_ + paise) } := by
                simp [Account.deposit, h2]
              simp [hw, hd] at he
  · intro fa ta h1 h2 hf ht hp hlt
    have hnp : ¬ paise ≤ 0 := not_le.mpr h2
    simp [Bank.transfer, h1, hnp, hf, ht, hp, Account.withdraw, hlt]

/-- Witness of C4: Alice holds 3000, and `transfer(1001, "1234", 1002, 5000)`
throws `InsufficientFunds` and leaves the ledger as it was. -/
theorem transfer_failure_atomic_witness :
    (Bank.transfer sampleHash twoAccounts 1001 (ascii "1234") 1002 5000).2 = twoAccounts ∧
    Bank.transfer sampleHash twoAccounts 1001 (ascii "1234") 1002 5000
      = (.error .InsufficientFunds, twoAccounts) :=
  ⟨(transfer_failure_atomic sampleHash twoAccounts 1001 (ascii "1234") 1002 5000).1
      .InsufficientFunds (by decide),
    (transfer_failure_atomic sampleHash twoAccounts 1001 (ascii "1234") 1002 5000).2
      ⟨1001, ascii "Alice", 3000, Bank.hash_pin sampleHash (ascii "s") (ascii "1234")⟩
      ⟨1002, ascii "Bob", 300, Bank.hash_pin sampleHash (ascii "s") (ascii "5678")⟩
      (by decide) (by decide) (by decide) (by decide) (by decide) (by decide)⟩

/-- Claim C5 as stated fails for every hash function and every salt: the digest
is a `size_t`, and there are more PINs of nine bytes than values of `size_t`, so
whatever `std::hash<string>` is, there are two different PINs of nine bytes with
the same salted digest, and `get_balance` with the second PIN on the account
opened with the first does not throw `AuthenticationError`. -/
theorem pin_collision_accepted : ¬ ∃ (H : Str → Nat) (salt : Str), ∀ p q : Str,
    p.length = 9 → q.length = 9 → isBytes p → isBytes q → q ≠ p →
    Bank.get_balance H (Bank.open_account H (Bank.empty [] salt) (ascii "A") p 0).2 1001 q
      = .error .AuthenticationError := by
  rintro ⟨H, salt, hH⟩
  let f : (Fin 9 → Fin 256) → Fin (2 ^ 64) := fun v =>
    ⟨Bank.hash_pin H salt (pinOfBytes v), Nat.mod_lt _ (by norm_num)⟩
  have hcard : Fintype.card (Fin (2 ^ 64)) < Fintype.card (Fin 9 → Fin 256) := by
    simp only [Fintype.card_fun, Fintype.card_fin]
    norm_num
  obtain ⟨v, w, hvw, hf⟩ := Fintype.exists_ne_map_eq_of_card_lt f hcard
  have hd : Bank.hash_pin H salt (pinOfBytes w) = Bank.hash_pin H salt (pinOfBytes v) := by
    have := congrArg Fin.val hf
    simpa [f] using this.symm
  have hne : pinOfBytes w ≠ pinOfBytes v := fun h => hvw (pinOfBytes_injective h).symm
  have h := hH (pinOfBytes v) (pinOfBytes w) (pinOfBytes_length v) (pinOfBytes_length w)
    (pinOfBytes_bytes v) (pinOfBytes_bytes w) hne
  have hA : ascii "A" ≠ [] := by decide
  have hlen : ¬ (pinOfBytes v).length < 4 := by rw [pinOfBytes_length]; norm_num
  simp [Bank.open_account, Bank.get_balance, Bank.empty, Bank.persist, Bank.emplace, Bank.find,
    Account.verify_pin, Bank.hash_pin, hA, hlen] at h
  simp [Bank.hash_pin] at hd
  exact h hd

/-- Claim C5, amended: when `open_account(name, p, init)` returns `id` and creates
the account (the id it hands out is not yet in the map), then in every state
reached from there by any sequence of operations, for every PIN `q` whose
salted digest `hash(q + ":" + salt)` differs from the salted digest of `p`,
`get_balance(id, q)`, `withdraw(id, q, amt)` and `transfer(id, q, to, amt)` (with
`to` an existing account other than `id` and `amt > 0`) throw
`AuthenticationError` and leave the ledger unchanged. -/
theorem wrong_digest_rejected (H : Str → Nat) (b b1 : Bank) (name p q : Str) (init id : Int)
    (ops : List Bank.Op)
    (hopen : Bank.open_account H b name p init = (.ok id, b1))
    (hfresh : Bank.find b.accounts_ b.next_id_ = none)
    (hq : Bank.hash_pin H b.salt_ q ≠ Bank.hash_pin H b.salt_ p) :
    Bank.get_balance H (Bank.run H b1 ops) id q = .error .AuthenticationError ∧
    (∀ amt, Bank.withdraw H (Bank.run H b1 ops) id q amt
      = (.error .AuthenticationError, Bank.run H b1 ops)) ∧
    (∀ toId amt, toId ≠ id → 0 < amt →
      (Bank.find (Bank.run H b1 ops).accounts_ toId).isSome = true →
      Bank.transfer H (Bank.run H b1 ops) id q toId amt
        = (.error .AuthenticationError, Bank.run H b1 ops)) := by
  unfold Bank.open_account at hopen
  split_ifs at hopen with h1 h2 h3
  · simp at hopen
  · simp at hopen
  · simp at hopen
  simp only [Prod.mk.injEq, Except.ok.injEq] at hopen
  obtain ⟨hid, hb1⟩ := hopen
  subst hid
  have hf1 : Bank.find b1.accounts_ b.next_id_
      = some ⟨b.next_id_, name, init, Bank.hash_pin H b.salt_ p⟩ := by
    rw [← hb1]
    exact find_emplace_fresh _ _ _ hfresh
  have hs1 : b1.salt_ = b.salt_ := by rw [← hb1]; rfl
  obtain ⟨a, hf, hd⟩ := run_digest H ops b1 b.next_id_ _ hf1
  have hs : (Bank.run H b1 ops).salt_ = b.salt_ := (run_key H ops b1).2.trans hs1
  have hv : a.verify_pin H q (Bank.run H b1 ops).salt_ = false := by
    rw [hs]
    simpa [Account.verify_pin, Bank.hash_pin, hd] using hq
  refine ⟨?_, ?_, ?_⟩
  · simp [Bank.get_balance, hf, hv]
  · intro amt
    simp [Bank.withdraw, hf, hv]
  · intro toId amt hto hamt hex
    have hne : ¬ b.next_id_ = toId := fun h => hto h.symm
    have hnp : ¬ amt ≤ 0 := not_le.mpr hamt
    obtain ⟨ta, hta⟩ := Option.isSome_iff_exists.mp hex
    simp [Bank.transfer, hne, hnp, hf, hta, hv]

/-- Witness of C5: Carol opens account 1003 with PIN 2468 in the ledger of Alice
and Bob; after a deposit and a withdrawal on her account the PIN 1234 is
rejected by all three operations. -/
theorem wrong_digest_rejected_witness :
    Bank.get_balance sampleHash (Bank.run sampleHash
        (Bank.open_account sampleHash twoAccounts (ascii "Carol") (ascii "2468") 50).2
        [.deposit 1003 25, .withdraw 1003 (ascii "2468") 5]) 1003 (ascii "1234")
      = .error .AuthenticationError ∧
    (∀ amt, Bank.withdraw sampleHash (Bank.run sampleHash
        (Bank.open_account sampleHash twoAccounts (ascii "Carol") (ascii "2468") 50).2
        [.deposit 1003 25, .withdraw 1003 (ascii "2468") 5]) 1003 (ascii "1234") amt
      = (.error .AuthenticationError, Bank.run sampleHash
        (Bank.open_account sampleHash twoAccounts (ascii "Carol") (ascii "2468") 50).2
        [.deposit 1003 25, .withdraw 1003 (ascii "2468") 5])) ∧
    (∀ toId amt, toId ≠ 1003 → 0 < amt →
      (Bank.find (Bank.run sampleHash
        (Bank.open_account sampleHash twoAccounts (ascii "Carol") (ascii "2468") 50).2
        [.deposit 1003 25, .withdraw 1003 (ascii "2468") 5]).accounts_ toId).isSome = true →
      Bank.transfer sampleHash (Bank.run sampleHash
        (Bank.open_account sampleHash twoAccounts (ascii "Carol") (ascii "2468") 50).2
        [.deposit 1003 25, .withdraw 1003 (ascii "2468") 5]) 1003 (ascii "1234") toId amt
      = (.error .AuthenticationError, Bank.run sampleHash
        (Bank.open_account sampleHash twoAccounts (ascii "Carol") (ascii "2468") 50).2
        [.deposit 1003 25, .withdraw 1003 (ascii "2468") 5])) :=
  wrong_digest_rejected sampleHash twoAccounts _ (ascii "Carol") (ascii "2468") (ascii "1234") 50
    1003 [.deposit 1003 25, .withdraw 1003 (ascii "2468") 5] (by decide) (by decide) (by decide)

/-- Claim C6 (open validation): when the name is empty, or the PIN has fewer than
four characters, or the initial amount is negative, `open_account` throws
`std::invalid_argument` and the ledger is unchanged: no account is created and
`next_id_` is not advanced. -/
theorem open_account_rejects_invalid (H : Str → Nat) (b : Bank) (name pin : Str) (initial_paise : Int)
    (h : name = [] ∨ pin.length < 4 ∨ initial_paise < 0) :
    Bank.open_account H b name pin initial_paise = (.error .InvalidArgument, b) := by
  unfold Bank.open_account
  rcases h with h | h | h
  · simp [h]
  · simp [h]
  · simp [h]

/-- Witness of C6: opening an account with the PIN `12`. -/
theorem open_account_rejects_invalid_witness :
    Bank.open_account sampleHash (Bank.empty (ascii "k") (ascii "s")) (ascii "Alice") (ascii "12") 0
      = (.error .InvalidArgument, Bank.empty (ascii "k") (ascii "s")) :=
  open_account_rejects_invalid sampleHash _ (ascii "Alice") (ascii "12") 0 (Or.inr (Or.inl (by decide)))

/-- Claim C7 as stated fails: after `open_account` with a name of 16777216 bytes
the record of the account is longer than the bound of 2^24 bytes that `load`
enforces, so `load` throws `PersistenceError` on the bytes that `save` writes for
`list_accounts()`. -/
theorem oversize_record_reload_fails :
    Persistence.loadBytes (ascii "k") (Persistence.saveBytes (ascii "k")
      (Bank.run sampleHash (Bank.empty (ascii "k") (ascii "s"))
        [.open_account (List.replicate 16777216 65) (ascii "1234") 0]).list_accounts)
      = .error .PersistenceError :=
  oversize_name_reload_fails _ (esc_replicate _) (List.length_replicate _ _)

/-- Claim C7, amended: take a ledger constructed on any store (no file, or a file
that loads) and driven by any sequence of public operations whose arguments are
values of their parameter types. If in the state reached the record
`serialize(a)` of every account is at most 2^24 bytes long and no account name
contains a backslash, then `load` under the same key on the bytes that `save`
writes for `list_accounts()` succeeds and yields exactly `list_accounts()`, and
a ledger constructed from those bytes lists the same accounts. -/
theorem reload_idempotent (H : Str → Nat) (store : Persistence) (salt : Str) (b0 : Bank)
    (ops : List Bank.Op) (hcreate : Bank.create store salt = .ok b0)
    (hops : ∀ op ∈ ops, op.typed)
    (hsize : ∀ a ∈ (Bank.run H b0 ops).list_accounts, a.serialize.length ≤ 2 ^ 24)
    (hname : ∀ a ∈ (Bank.run H b0 ops).list_accounts, 92 ∉ a.name_) :
    Persistence.loadBytes store.key
        (Persistence.saveBytes store.key (Bank.run H b0 ops).list_accounts)
      = .ok (Bank.run H b0 ops).list_accounts ∧
    (∃ b1, Bank.create ⟨store.key, some (Persistence.saveBytes store.key
        (Bank.run H b0 ops).list_accounts)⟩ salt = .ok b1 ∧
      b1.list_accounts = (Bank.run H b0 ops).list_accounts) :=
  reload_of_wf (Bank.run H b0 ops) store.key salt
    (wf_run H ops b0 (wf_create store salt b0 hcreate) hops) hsize hname

/-- Witness of C7: the list of the ledger of Alice and Bob, opened without a
backing file, is read back from the bytes `save` writes for it. -/
theorem reload_idempotent_witness :
    Persistence.loadBytes (ascii "k")
        (Persistence.saveBytes (ascii "k")
          (Bank.run sampleHash (Bank.empty (ascii "k") (ascii "s")) sampleOps).list_accounts)
      = .ok (Bank.run sampleHash (Bank.empty (ascii "k") (ascii "s")) sampleOps).list_accounts ∧
    (∃ b1, Bank.create ⟨ascii "k", some (Persistence.saveBytes (ascii "k")
        (Bank.run sampleHash (Bank.empty (ascii "k") (ascii "s")) sampleOps).list_accounts)⟩
        (ascii "s") = .ok b1 ∧
      b1.list_accounts
        = (Bank.run sampleHash (Bank.empty (ascii "k") (ascii "s")) sampleOps).list_accounts) :=
  reload_idempotent sampleHash ⟨ascii "k", none⟩ (ascii "s")
    (Bank.empty (ascii "k") (ascii "s")) sampleOps rfl (by decide) (by decide) (by decide)

/-- Claim C8 (obfuscation involution): for every key, the empty key included, and
every byte sequence `b`, applying the cipher twice gives `b` back, and applying
it once keeps the length. -/
theorem cipher_involution (k b : Str) (hb : isBytes b) :
    SimpleCipher.apply k (SimpleCipher.apply k b) = b ∧
    (SimpleCipher.apply k b).length = b.length :=
  ⟨apply_apply k b hb, apply_length k b⟩

/-- Witness of C8: the empty key on the bytes of `1001|Alice|3000|7`. -/
theorem cipher_involution_witness :
    SimpleCipher.apply [] (SimpleCipher.apply [] (ascii "1001|Alice|3000|7"))
      = ascii "1001|Alice|3000|7" ∧
    (SimpleCipher.apply [] (ascii "1001|Alice|3000|7")).length
      = (ascii "1001|Alice|3000|7").length :=
  cipher_involution [] (ascii "1001|Alice|3000|7") (by decide)

/-- Claim C9 as stated fails: on the empty ledger `withdraw(1001, "1234", 0)` and
`deposit(1001, 0)` throw `AccountNotFound`, not `std::invalid_argument`: the
account is looked up before the amount is examined. -/
theorem nonpositive_amount_unknown_id :
    (Bank.withdraw sampleHash (Bank.empty (ascii "k") (ascii "s")) 1001 (ascii "1234") 0).1
      = .error .AccountNotFound ∧
    (Bank.deposit (Bank.empty (ascii "k") (ascii "s")) 1001 0).1 = .error .AccountNotFound := by
  decide

/-- Claim C9, amended: for every ledger state, every id of an existing account
and every amount `<= 0`, `deposit(id, amount)` throws `std::invalid_argument`,
and `withdraw(id, pin, amount)` with a PIN that verifies throws
`std::invalid_argument`; the ledger is unchanged. -/
theorem nonpositive_amount_rejected (H : Str → Nat) (b : Bank) (id : Int) (pin : Str)
    (paise : Int) (a : Account) (hfind : Bank.find b.accounts_ id = some a) (hp : paise ≤ 0) :
    Bank.deposit b id paise = (.error .InvalidArgument, b) ∧
    (a.verify_pin H pin b.salt_ = true →
      Bank.withdraw H b id pin paise = (.error .InvalidArgument, b)) := by
  constructor
  · simp [Bank.deposit, hfind, Account.deposit, hp]
  · intro hpin
    simp [Bank.withdraw, hfind, hpin, Account.withdraw, hp]

/-- Witness of C9: the amount 0 on Alice's account with her PIN. -/
theorem nonpositive_amount_rejected_witness :
    Bank.deposit twoAccounts 1001 0 = (.error .InvalidArgument, twoAccounts) ∧
    Bank.withdraw sampleHash twoAccounts 1001 (ascii "1234") 0
      = (.error .InvalidArgument, twoAccounts) :=
  ⟨(nonpositive_amount_rejected sampleHash twoAccounts 1001 (ascii "1234") 0
      ⟨1001, ascii "Alice", 3000, Bank.hash_pin sampleHash (ascii "s") (ascii "1234")⟩
      (by decide) (by decide)).1,
    (nonpositive_amount_rejected sampleHash twoAccounts 1001 (ascii "1234") 0
      ⟨1001, ascii "Alice", 3000, Bank.hash_pin sampleHash (ascii "s") (ascii "1234")⟩
      (by decide) (by decide)).2 (by decide)⟩

/-- Claim C10 (withdraw postcondition): for an existing account whose PIN
verifies and an amount `> 0`, `withdraw` throws `InsufficientFunds` exactly when
the balance is below the amount, and then the ledger is unchanged; otherwise it
returns, the balance of the account is lowered by exactly the amount, its id,
name and digest are unchanged, every other account is unchanged, and so are the
keys of the map, `next_id_` and the salt. The balance is a `long long`. -/
theorem withdraw_postcondition (H : Str → Nat) (b : Bank) (id : Int) (pin : Str) (paise : Int)
    (a : Account) (hfind : Bank.find b.accounts_ id = some a)
    (hpin : a.verify_pin H pin b.salt_ = true) (hpos : 0 < paise)
    (hbal : inLL a.balance_paise_) :
    ((Bank.withdraw H b id pin paise).1 = .error .InsufficientFunds ↔ a.balance_paise_ < paise) ∧
    (a.balance_paise_ < paise → (Bank.withdraw H b id pin paise).2 = b) ∧
    (¬ a.balance_paise_ < paise →
      (Bank.withdraw H b id pin paise).1 = .ok () ∧
      Bank.find (Bank.withdraw H b id pin paise).2.accounts_ id
        = some { a with balance_paise_ := a.balance_paise_ - paise } ∧
      (∀ k, k ≠ id →
        Bank.find (Bank.withdraw H b id pin paise).2.accounts_ k = Bank.find b.accounts_ k) ∧
      (Bank.withdraw H b id pin paise).2.accounts_.map Prod.fst = b.accounts_.map Prod.fst ∧
      (Bank.withdraw H b id pin paise).2.next_id_ = b.next_id_ ∧
      (Bank.withdraw H b id pin paise).2.salt_ = b.salt_) := by
  have hnp : ¬ paise ≤ 0 := not_le.mpr hpos
  by_cases hlt : a.balance_paise_ < paise
  · have hw : Bank.withdraw H b id pin paise = (.error .InsufficientFunds, b) := by
      simp [Bank.withdraw, hfind, hpin, Account.withdraw, hnp, hlt]
    simp [hw, hlt]
  · have hin : inLL (a.balance_paise_ - paise) := by
      unfold inLL at *
      omega
    have hw : Bank.withdraw H b id pin paise = (.ok (), Bank.persist { b with
        accounts_ := Bank.assign b.accounts_ id
          { a with balance_paise_ := a.balance_paise_ - paise } }) := by
      simp [Bank.withdraw, hfind, hpin, Account.withdraw, hnp, hlt, wrap64_id _ hin]
    rw [hw]
    refine ⟨by simp [hlt], fun h => absurd h hlt, fun _ => ⟨rfl, ?_, ?_, ?_, rfl, rfl⟩⟩
    · exact find_assign_self _ _ _ _ hfind
    · intro k hk
      exact find_assign_other _ _ _ _ hk
    · exact assign_keys _ _ _

/-- Witness of C10: Bob withdraws his whole balance of 300 and is left with 0. -/
theorem withdraw_postcondition_witness :
    (Bank.withdraw sampleHash twoAccounts 1002 (ascii "5678") 300).1 = .ok () ∧
    Bank.find (Bank.withdraw sampleHash twoAccounts 1002 (ascii "5678") 300).2.accounts_ 1002
      = some ⟨1002, ascii "Bob", 0, Bank.hash_pin sampleHash (ascii "s") (ascii "5678")⟩ :=
  ⟨((withdraw_postcondition sampleHash twoAccounts 1002 (ascii "5678") 300
      ⟨1002, ascii "Bob", 300, Bank.hash_pin sampleHash (ascii "s") (ascii "5678")⟩
      (by decide) (by decide) (by decide) (by decide)).2.2 (by decide)).1,
    ((withdraw_postcondition sampleHash twoAccounts 1002 (ascii "5678") 300
      ⟨1002, ascii "Bob", 300, Bank.hash_pin sampleHash (ascii "s") (ascii "5678")⟩
      (by decide) (by decide) (by decide) (by decide)).2.2 (by decide)).2.1⟩

/-- Claim C11 (deposit needs no PIN), evaluated on the ledger reached from the
empty ledger by `open_account("A", "1234", 9223372036854775000)`: the call
`deposit(1001, 1000)` returns, but the addition in `Account::deposit` overflows
`long long` and the balance of account 1001 becomes `-9223372036854775616`
instead of growing by 1000. -/
theorem deposit_overflow_not_exact :
    (Bank.find (Bank.run sampleHash (Bank.empty (ascii "k") (ascii "s"))
        [.open_account (ascii "A") (ascii "1234") 9223372036854775000]).accounts_ 1001).map
        (fun a => a.balance_paise_) = some 9223372036854775000 ∧
    (Bank.deposit (Bank.run sampleHash (Bank.empty (ascii "k") (ascii "s"))
        [.open_account (ascii "A") (ascii "1234") 9223372036854775000]) 1001 1000).1 = .ok () ∧
    (Bank.find (Bank.deposit (Bank.run sampleHash (Bank.empty (ascii "k") (ascii "s"))
        [.open_account (ascii "A") (ascii "1234") 9223372036854775000]) 1001
          1000).2.accounts_ 1001).map (fun a => a.balance_paise_)
      = some (-9223372036854775616) := by
  decide

/-- Claim C12 (ids are fresh and never reused), evaluated on the ledger
constructed from a file that holds the one record `2147483647|A|0|0`: the
constructor computes `max(next_id_, a.id() + 1)`, the addition overflows `int`,
and `next_id_` stays 1001 while the map holds the id 2147483647, so `next_id_`
is not greater than the id of every account. -/
theorem next_id_wraps_at_int_max :
    (Bank.create ⟨ascii "k", some (Persistence.saveBytes (ascii "k")
        [⟨2147483647, ascii "A", 0, 0⟩])⟩ (ascii "s")).map
        (fun b => (b.next_id_, b.accounts_.map Prod.fst)) = .ok (1001, [2147483647]) := by
  decide

/-- Claim C13 (key derivation formula), evaluated on the empty key: the derived
key has 64 bytes, but its byte 2 is 41, whereas the formula with an 8-bit left
rotation gives 40. The code computes `key[i] << (i % 5)` and keeps the low 8
bits, so the bits shifted out of the byte are lost instead of rotated in. -/
theorem derived_key_shifts_not_rotates :
    (SimpleCipher.derive []).length = 64 ∧
    (SimpleCipher.derive []).getD 2 0 = 41 ∧
    specKeyByte [] 2 = 40 := by
  decide

/-- Claim C14 as stated fails: the line `12abc|n|5|7` splits into exactly 4
fields, its id field `12abc` is no integer numeral, and `deserialize` returns
the account with id 12: `std::stoi` reads the leading digits and ignores the
rest of the field. -/
theorem trailing_garbage_accepted :
    Account.fields (ascii "12abc|n|5|7") = [ascii "12abc", ascii "n", ascii "5", ascii "7"] ∧
    isIntNumeral (ascii "12abc") = false ∧
    Account.deserialize (ascii "12abc|n|5|7") = .ok ⟨12, ascii "n", 5, 7⟩ := by
  decide

/-- Claim C14, amended: for every line, `deserialize` throws `PersistenceError`
when the split on unescaped `|` does not give exactly 4 fields; and when it
gives 4 fields of which the id, the balance or the digest field holds no decimal
digit right after optional leading white space and one optional sign,
`deserialize` throws and returns no account. -/
theorem deserialize_rejects_malformed (line : Str) :
    ((Account.fields line).length ≠ 4 →
      Account.deserialize line = .error .PersistenceError) ∧
    (∀ p0 p1 p2 p3, Account.fields line = [p0, p1, p2, p3] →
      (scanInt p0 = none ∨ scanInt p2 = none ∨ scanInt p3 = none) →
      ∃ e, Account.deserialize line = .error e) := by
  constructor
  · intro hlen
    unfold Account.fields at hlen
    unfold Account.deserialize
    dsimp only
    split
    · rename_i heq
      rw [heq] at hlen
      simp at hlen
    · rfl
  · intro p0 p1 p2 p3 hf hbad
    rw [deserialize_of_fields line p0 p1 p2 p3 hf]
    cases h0 : stoi p0 with
    | error e => exact ⟨e, rfl⟩
    | ok id =>
      have hn0 : scanInt p0 ≠ none := by
        intro hn
        rw [stoi_no_digits _ hn] at h0
        simp at h0
      cases h2 : stoll p2 with
      | error e => exact ⟨e, rfl⟩
      | ok bal =>
        have hn2 : scanInt p2 ≠ none := by
          intro hn
          rw [stoll_no_digits _ hn] at h2
          simp at h2
        have hn3 : scanInt p3 = none := by
          rcases hbad with h | h | h
          · exact absurd h hn0
          · exact absurd h hn2
          · exact h
        exact ⟨.InvalidArgument, by simp [stoull_no_digits _ hn3]⟩

/-- Witness of C14: a line of three fields, and a line of four fields whose
balance field is `x30`. -/
theorem deserialize_rejects_malformed_witness :
    Account.deserialize (ascii "1001|Alice|3000") = .error .PersistenceError ∧
    ∃ e, Account.deserialize (ascii "1001|Alice|x30|7") = .error e :=
  ⟨(deserialize_rejects_malformed (ascii "1001|Alice|3000")).1 (by decide),
    (deserialize_rejects_malformed (ascii "1001|Alice|x30|7")).2
      (ascii "1001") (ascii "Alice") (ascii "x30") (ascii "7") (by decide)
      (Or.inr (Or.inl (by decide)))⟩

/-- Claim C15 (load rejects damaged files), evaluated on the file that `save`
writes for the ledger of Alice and Bob (57 bytes, the record of Alice ending at
byte 30) cut after byte 32, that is in the middle of the length prefix of the
record of Bob: `load` does not throw, it returns the list that holds Alice
alone. A read of fewer than four bytes for the prefix ends the loop like the
end of the file. -/
theorem truncated_prefix_loads :
    (Persistence.saveBytes (ascii "k") twoAccounts.list_accounts).length = 57 ∧
    (Persistence.saveBytes (ascii "k") (twoAccounts.list_accounts.take 1)).length = 30 ∧
    ((Persistence.saveBytes (ascii "k") twoAccounts.list_accounts).take 32).drop 30 = [23, 0] ∧
    Persistence.loadBytes (ascii "k")
        ((Persistence.saveBytes (ascii "k") twoAccounts.list_accounts).take 32)
      = .ok (twoAccounts.list_accounts.take 1) := by
  decide

/-- Claim C16 (list is the ordered snapshot): in every ledger state reached from a
constructed ledger by public operations, the ids of `list_accounts()` are
strictly ascending and the sequence is a permutation of the values of the
in-memory map, so it holds each account exactly once with its current fields.
The method is `const`: it is a function of the ledger and returns no ledger. -/
theorem list_accounts_sorted_snapshot (H : Str → Nat) (store : Persistence) (salt : Str)
    (b0 : Bank) (ops : List Bank.Op) (hcreate : Bank.create store salt = .ok b0)
    (hops : ∀ op ∈ ops, op.typed) :
    List.Pairwise (fun x y : Account => x.id_ < y.id_) (Bank.run H b0 ops).list_accounts ∧
    List.Perm (Bank.run H b0 ops).list_accounts
      ((Bank.run H b0 ops).accounts_.map Prod.snd) :=
  ⟨snapshot_strict _ (wf_run H ops b0 (wf_create store salt b0 hcreate) hops),
    snapshot_perm _⟩

/-- Witness of C16: the ledger of Alice and Bob. -/
theorem list_accounts_sorted_snapshot_witness :
    List.Pairwise (fun x y : Account => x.id_ < y.id_)
      (Bank.run sampleHash (Bank.empty (ascii "k") (ascii "s")) sampleOps).list_accounts ∧
    List.Perm (Bank.run sampleHash (Bank.empty (ascii "k") (ascii "s")) sampleOps).list_accounts
      ((Bank.run sampleHash (Bank.empty (ascii "k") (ascii "s")) sampleOps).accounts_.map
        Prod.snd) :=
  list_accounts_sorted_snapshot sampleHash ⟨ascii "k", none⟩ (ascii "s")
    (Bank.empty (ascii "k") (ascii "s")) sampleOps rfl (by decide)

/-- Claim C17 (end-to-end scenario and balance inquiry), evaluated on the ledger
constructed from a file that holds the ids 2147483646 and 2147483647: the
constructor leaves `next_id_` at 2147483647, an id of the map;
`open_account("Carol", "2468", 50)` returns 2147483647 and `emplace` inserts
nothing, so the map is unchanged; `get_balance(2147483647, "2468")` with the PIN
just given throws `AuthenticationError` instead of returning a balance. -/
theorem open_returns_occupied_id :
    topIdsLedger.map (fun b => (b.next_id_, b.accounts_.map Prod.fst))
      = .ok (2147483647, [2147483646, 2147483647]) ∧
    topIdsLedger.map (fun b =>
        (Bank.open_account sampleHash b (ascii "Carol") (ascii "2468") 50).1)
      = .ok (.ok 2147483647) ∧
    topIdsLedger.map (fun b =>
        (Bank.open_account sampleHash b (ascii "Carol") (ascii "2468") 50).2.accounts_)
      = topIdsLedger.map (fun b => b.accounts_) ∧
    topIdsLedger.map (fun b => Bank.get_balance sampleHash
        (Bank.open_account sampleHash b (ascii "Carol") (ascii "2468") 50).2 2147483647
        (ascii "2468"))
      = .ok (.error .AuthenticationError) := by
  decide

/-- Claim C19 (what the codec always preserves): for every account whose id is an
`int`, whose balance is a `long long` and whose digest is a `size_t`, with any
name whatsoever, the line `serialize(a)` splits into exactly 4 fields,
`deserialize` succeeds on it and returns the id, the balance and the digest of
`a`; the name returned is the name of `a` when that name holds no backslash. -/
theorem codec_preserves_numbers (a : Account) (hid : inInt a.id_) (hbal : inLL a.balance_paise_)
    (hdig : a.pin_hash_ < 2 ^ 64) :
    ((Account.splitLoop [] [] false a.serialize).1 ++
        [(Account.splitLoop [] [] false a.serialize).2]).length = 4 ∧
    ∃ r, Account.deserialize a.serialize = .ok r ∧ r.id_ = a.id_ ∧
      r.balance_paise_ = a.balance_paise_ ∧ r.pin_hash_ = a.pin_hash_ ∧
      (92 ∉ a.name_ → r.name_ = a.name_) := by
  refine ⟨by rw [splitLoop_serialize]; rfl, _, deserialize_serialize_fields a hid hbal hdig,
    rfl, rfl, rfl, ?_⟩
  intro h
  exact unescLoop_plain _ h

/-- Witness of C19: an account with a negative id and balance and the name
`a|b`, line feed, `c`. -/
theorem codec_preserves_numbers_witness :
    ((Account.splitLoop [] [] false (Account.serialize ⟨-7, ascii "a|b\nc", -250, 12345⟩)).1 ++
        [(Account.splitLoop [] [] false
          (Account.serialize ⟨-7, ascii "a|b\nc", -250, 12345⟩)).2]).length = 4 ∧
    ∃ r, Account.deserialize (Account.serialize ⟨-7, ascii "a|b\nc", -250, 12345⟩) = .ok r ∧
      r.id_ = -7 ∧ r.balance_paise_ = -250 ∧ r.pin_hash_ = 12345 ∧
      (92 ∉ ascii "a|b\nc" → r.name_ = ascii "a|b\nc") :=
  codec_preserves_numbers ⟨-7, ascii "a|b\nc", -250, 12345⟩ (by decide) (by decide) (by decide)

/-- Claim C20 (money text round trip), evaluated on the amount -5: `to_money(-5)`
is the text `0.05`, because the quotient `-5 / 100` is 0 and prints without a
sign, and `parse_money` reads it back as 5. Every amount from -99 to -1 loses
its sign in the same way. -/
theorem money_roundtrip_loses_sign :
    to_money (-5) = ascii "0.05" ∧ parse_money (to_money (-5)) = .ok 5 := by
  decide

end Banking
